import Mathlib

/-!
Verification development for the random-crystal generator
(`crystallography/crystal.py` and `crystallography/operations.py`).

The Python source is numeric code over IEEE doubles together with purely
combinatorial control flow.  The shallow embedding below follows the source
function by function:

* combinatorial data (Wyckoff positions, coordinate lists, graph merging,
  the retry loops of `random_crystal.generate_crystal`) is embedded over `ℚ`
  with executable definitions;
* the handful of genuinely real-valued geometric subroutines that the
  combinatorial layer merely consumes through their results
  (`distance(xyz, lattice)`, `get_center`, `check_wyckoff_position`, and the
  `np.min(cdist(...))` kernel of `check_distance`) are passed as explicit
  function parameters, mirroring the fact that they are separate functions
  in the source; every theorem below quantifies over them;
* the lattice algebra (`para2matrix`, `matrix2para`, `generate_lattice`)
  is embedded over `ℝ`, the ideal-real reading of the floating point code,
  in the second half of the file.

Randomness: every call of `random.uniform`, `random.choice`,
`np.random.random`, `np.random.normal` in the source is modelled by an
oracle argument indexed by the position of the call in the loop structure
(outer cycle, middle cycle, species index, inner cycle), so the embedded
functions are deterministic functions of the oracles and all theorems
quantify over the oracles.
-/

/-! ### Fractional 3-vectors and symmetry operations over ℚ -/

/-- A fractional coordinate (3-vector over ℚ). -/
abbrev Vec3 : Type := ℚ × ℚ × ℚ

def add3 (u v : Vec3) : Vec3 := (u.1 + v.1, u.2.1 + v.2.1, u.2.2 + v.2.2)

def sub3 (u v : Vec3) : Vec3 := (u.1 - v.1, u.2.1 - v.2.1, u.2.2 - v.2.2)

def dotq (u v : Vec3) : ℚ := u.1 * v.1 + u.2.1 * v.2.1 + u.2.2 * v.2.2

/-- A symmetry operation: 3×3 rotation part (stored as three rows) plus a
translation vector, the embedding of a pymatgen `SymmOp` in fractional
coordinates. -/
structure SymmOpQ where
  r0 : Vec3
  r1 : Vec3
  r2 : Vec3
  t : Vec3
deriving DecidableEq, Repr

/-- `op.operate(p)`: apply the affine operation to a point. -/
def SymmOpQ.operate (op : SymmOpQ) (p : Vec3) : Vec3 :=
  (dotq op.r0 p + op.t.1, dotq op.r1 p + op.t.2.1, dotq op.r2 p + op.t.2.2)

/-- The identity operation "x,y,z". -/
def idOp : SymmOpQ :=
  { r0 := (1, 0, 0), r1 := (0, 1, 0), r2 := (0, 0, 1), t := (0, 0, 0) }

/-- `x - np.floor(x)` on one component. -/
def wrap1 (x : ℚ) : ℚ := x - (⌊x⌋ : ℚ)

/-- `coords - np.floor(coords)` on a 3-vector (the "scale the coordinates to
[0,1]" step of `generate_crystal`). -/
def wrap3 (v : Vec3) : Vec3 := (wrap1 v.1, wrap1 v.2.1, wrap1 v.2.2)

/-- All components of `v` lie in the half-open interval [0,1). -/
def inUnit (v : Vec3) : Prop :=
  0 ≤ v.1 ∧ v.1 < 1 ∧ 0 ≤ v.2.1 ∧ v.2.1 < 1 ∧ 0 ≤ v.2.2 ∧ v.2.2 < 1

instance (v : Vec3) : Decidable (inUnit v) := by unfold inUnit; infer_instance

/-- A Wyckoff position: the list of its symmetry operations; its length is
the multiplicity. -/
abbrev WyckoffPos : Type := List SymmOpQ

/-- An organized Wyckoff list (`get_wyckoffs(sg, organized=True)`): groups of
Wyckoff positions of equal multiplicity, highest multiplicity first. -/
abbrev OrganizedW : Type := List (List WyckoffPos)

/-! ### `cellsize` -/

/-- `cellsize(sg)` from `crystal.py`, as a function of the first letter of
the space group's international symbol (the lookup
`sg_symbol_from_int_number(sg)` itself is external library data).  The
source returns an error *string* in the fall-through branch; we return 0
there (any use of the error string in `numIons * cellsize(sg)` would crash
the source). -/
def cellsize (letter : Char) : ℕ :=
  if letter = 'P' then 1
  else if letter = 'A' ∨ letter = 'C' ∨ letter = 'I' then 2
  else if letter = 'R' then 3
  else if letter = 'F' then 4
  else 0

/-! ### `choose_wyckoff` -/

/-- `random.choice(l)` modelled with an index oracle `k`: returns
`l[k % len(l)]`, and `none` exactly on the empty list (where the source
would raise). -/
def choose_from (l : List WyckoffPos) (k : ℕ) : Option WyckoffPos :=
  l.get? (k % l.length)

/-- `choose_wyckoff(wyckoffs, number)` from `crystal.py`.  The coin flip
`rand(0,1) > 0.5` is the oracle `branch`, the uniform choice is the oracle
`k`.  `False` is modelled as `none`. -/
def choose_wyckoff (wyckoffs : OrganizedW) (number : ℕ) (branch : Bool) (k : ℕ) :
    Option WyckoffPos :=
  if branch then
    match wyckoffs.find? (fun g => (g.headD []).length ≤ number) with
    | some g => choose_from g k
    | none => none
  else
    let good := (wyckoffs.filter (fun g => (g.headD []).length ≤ number)).flatten
    if 0 < good.length then choose_from good k else none

/-! ### `create_matrix` and `check_distance` -/

/-- `create_matrix(PBC)` from `crystal.py`: the periodic-image offset
vectors; axis `PBC ∈ {1,2,3}` restricts that axis's offsets to `{0}`
(`PBC = 0` stands for Python's `None`). -/
def create_matrix (PBC : ℕ) : List Vec3 :=
  let i_list : List ℚ := if PBC = 1 then [0] else [-1, 0, 1]
  let j_list : List ℚ := if PBC = 2 then [0] else [-1, 0, 1]
  let k_list : List ℚ := if PBC = 3 then [0] else [-1, 0, 1]
  i_list.flatMap fun i => j_list.flatMap fun j => k_list.map fun k => (i, j, k)

/-- Inner loop of `check_distance`: over `zip(coord1, specie1)`, compare the
minimum distance from this species' coordinates to the replicated candidate
set against the covalent-radius tolerance. -/
def check_distance_go (coord2s : List Vec3) (specie2 : ℕ)
    (dmin : List Vec3 → List Vec3 → ℚ) (radius : ℕ → ℚ) (d_factor : ℚ) :
    List (List Vec3 × ℕ) → Bool
  | [] => true
  | (coord, element) :: rest =>
    let d_min := dmin coord coord2s
    let tol := d_factor * (1/2 : ℚ) * (radius element + radius specie2)
    if d_min < tol then false
    else check_distance_go coord2s specie2 dmin radius d_factor rest

/-- `check_distance(coord1, coord2, specie1, specie2, lattice, PBC, d_factor)`
from `crystal.py`.  The candidate set is replicated over the periodic
images; the Euclidean kernel `np.min(cdist(np.dot(·, lattice),
np.dot(·, lattice)))` (floating point, lattice-dependent) is the function
parameter `dmin`, applied to the fractional coordinate lists; `radius`
models `Element(·).covalent_radius`. -/
def check_distance (coord1 : List (List Vec3)) (coord2 : List Vec3)
    (specie1 : List ℕ) (specie2 : ℕ)
    (dmin : List Vec3 → List Vec3 → ℚ) (radius : ℕ → ℚ)
    (PBC : ℕ) (d_factor : ℚ) : Bool :=
  let matrix := create_matrix PBC
  let coord2s := coord2.foldl (fun acc c => acc ++ matrix.map (fun m => add3 c m)) []
  if 0 < coord1.length then
    check_distance_go coord2s specie2 dmin radius d_factor (coord1.zip specie1)
  else true

/-! ### `find_short_dist` -/

/-- The pair list of `find_short_dist`: all `(i1, i2, dist)` with
`i1 < i2 < len(coor)` and `dist ≤ tol`, where `dist` models the
floating-point `distance(coor[i1] - coor[i2], lattice)`. -/
def short_pairs (coor : List Vec3) (dist : Vec3 → ℚ) (tol : ℚ) :
    List (ℕ × ℕ × ℚ) :=
  (List.range coor.length).flatMap fun i1 =>
    (List.range coor.length).filterMap fun i2 =>
      if i1 < i2 then
        let d := dist (sub3 (coor.getD i1 (0,0,0)) (coor.getD i2 (0,0,0)))
        if d ≤ tol then some (i1, i2, d) else none
      else none

/-- Add the graph edges of the filtered pair list
(`graph[pair0].append(pair1); graph[pair1].append(pair0)`). -/
def add_edges : List (ℕ × ℕ × ℚ) → List (List ℕ) → List (List ℕ)
  | [], g => g
  | (i, j, _) :: ps, g =>
    let g1 := g.set i (g.getD i [] ++ [j])
    let g2 := g1.set j (g1.getD j [] ++ [i])
    add_edges ps g2

/-- `find_short_dist(coor, lattice, tol)` from `crystal.py`: collect all
pairs at distance ≤ `tol`, keep only those within `1e-3` of the minimum
observed distance, and build the adjacency-list graph on the kept pairs. -/
def find_short_dist (coor : List Vec3) (dist : Vec3 → ℚ) (tol : ℚ) :
    List (ℕ × ℕ × ℚ) × List (List ℕ) :=
  let pairs := short_pairs coor dist tol
  let graph0 : List (List ℕ) := (List.range coor.length).map fun _ => []
  if pairs.length > 0 then
    let d_min := (pairs.map (fun p => p.2.2)).foldr min tol + 1/1000
    let pairs' := pairs.filter fun p => p.2.2 ≤ d_min
    (pairs', add_edges pairs' graph0)
  else
    (pairs, graph0)

/-! ### `connected_components` -/

mutual

/-- Depth-first search of `add_neighbors` in `connected_components`:
`visit g fuel el seen` models `add_neighbors(el, seen)` (the shared mutable
`seen` list is threaded through the recursion).  The fuel bounds the
recursion depth; every nested call in the source is preceded by the
insertion of a fresh vertex into `seen`, so fuel `len(graph) + 1` never
runs out on the graphs built by `find_short_dist`. -/
def visit (g : List (List ℕ)) : ℕ → ℕ → List ℕ → List ℕ
  | 0, _, seen => seen
  | fuel + 1, el, seen => visit_list g fuel (g.getD el []) seen
termination_by fuel _ _ => (fuel, 0)

/-- The `for x in graph[el]` loop of `add_neighbors`. -/
def visit_list (g : List (List ℕ)) : ℕ → List ℕ → List ℕ → List ℕ
  | _, [], seen => seen
  | fuel, x :: xs, seen =>
    if x ∈ seen then visit_list g fuel xs seen
    else visit_list g fuel xs (visit g fuel x (seen ++ [x]))
termination_by fuel xs _ => (fuel, xs.length + 1)

end

/-- The `while unseen != []` loop of `connected_components`:
`x = unseen.pop()` pops the last entry, its component is
`add_neighbors(x)`, and all its members are removed from `unseen`.  The
loop is given fuel; since every iteration pops at least one entry, fuel
equal to the initial number of vertices is exact. -/
def conn_loop (g : List (List ℕ)) : ℕ → List ℕ → List (List ℕ) → List (List ℕ)
  | 0, _, sets => sets
  | _ + 1, [], sets => sets
  | fuel + 1, u :: us, sets =>
    let x := (u :: us).getLastD 0
    let comp := visit g (g.length + 1) x [x]
    let rest := (u :: us).dropLast
    conn_loop g fuel (rest.filter (fun y => y ∉ comp)) (sets ++ [comp])

/-- `connected_components(graph)` from `crystal.py`. -/
def connected_components (g : List (List ℕ)) : List (List ℕ) :=
  conn_loop g g.length (List.range g.length) []

/-! ### `merge_coordinate` -/

/-- One merged candidate: the periodic centroid of each connected component
of the short-distance graph.  `center` models the floating-point
`get_center(coor[group], lattice, PBC)`. -/
def merged_of (coor : List Vec3) (dist : Vec3 → ℚ) (center : List Vec3 → Vec3)
    (tol : ℚ) : List Vec3 :=
  (connected_components (find_short_dist coor dist tol).2).map fun grp =>
    center (grp.map fun i => coor.getD i (0,0,0))

/-- `merge_coordinate(coor, lattice, wyckoff, sg, tol, PBC)` from
`crystal.py`.  `checkW` models `check_wyckoff_position(·, sg,
exact_translation=False)` with `False` as `none`; `Option ℕ` is the
returned index.  The source's `while True` loop is given a fuel parameter;
by the termination theorem below any fuel above `coor.length` computes the
source's value. -/
def merge_coordinate (dist : Vec3 → ℚ) (center : List Vec3 → Vec3)
    (checkW : List Vec3 → Option ℕ) (wyckoff : OrganizedW) (tol : ℚ) :
    ℕ → List Vec3 → List Vec3 × Option ℕ
  | 0, coor => (coor, none)
  | fuel + 1, coor =>
    let pairs := (find_short_dist coor dist tol).1
    if pairs.length > 0 then
      if ((wyckoff.getLastD []).headD []).length < coor.length then
        let merged := merged_of coor dist center tol
        match checkW merged with
        | none => (coor, none)
        | some _ => merge_coordinate dist center checkW wyckoff tol fuel merged
      else (coor, none)
    else (coor, checkW coor)

/-! ### `random_crystal.check_compatible` -/

/-- Result of `check_compatible`: Python's `False` / `0` / `True`. -/
inductive CompatRes where
  | incompatible  -- Python `False`
  | zerodof       -- Python `0`
  | ok            -- Python `True`
deriving DecidableEq, Repr

/-- `rotation_matrix.all() != 0.0`: true iff every entry of the rotation
part is nonzero. -/
def allEntriesNonzero (op : SymmOpQ) : Bool :=
  decide (op.r0.1 ≠ 0 ∧ op.r0.2.1 ≠ 0 ∧ op.r0.2.2 ≠ 0 ∧
    op.r1.1 ≠ 0 ∧ op.r1.2.1 ≠ 0 ∧ op.r1.2.2 ≠ 0 ∧
    op.r2.1 ≠ 0 ∧ op.r2.2.1 ≠ 0 ∧ op.r2.2.2 ≠ 0)

/-- `np.allclose(op.rotation_matrix, np.zeros([3,3]))` with numpy's default
tolerances (`atol = 1e-8`, and `rtol·|0| = 0`). -/
def allCloseZero (op : SymmOpQ) : Bool :=
  decide (|op.r0.1| ≤ 1/100000000 ∧ |op.r0.2.1| ≤ 1/100000000 ∧
    |op.r0.2.2| ≤ 1/100000000 ∧
    |op.r1.1| ≤ 1/100000000 ∧ |op.r1.2.1| ≤ 1/100000000 ∧
    |op.r1.2.2| ≤ 1/100000000 ∧
    |op.r2.1| ≤ 1/100000000 ∧ |op.r2.2.1| ≤ 1/100000000 ∧
    |op.r2.2.2| ≤ 1/100000000)

/-- The `while remaining >= len(wp) and wp not in removed_wyckoffs` loop of
`check_compatible`, with fuel (`remaining + 1` suffices whenever
`len(wp) ≥ 1`; for an empty `wp` the source would crash on `wp[0]`).
State: `(remaining, removed_wyckoffs, has_freedom)`. -/
def compat_sub (wp : WyckoffPos) :
    ℕ → ℕ × List WyckoffPos × Bool → ℕ × List WyckoffPos × Bool
  | 0, st => st
  | fuel + 1, (remaining, removed, hasF) =>
    if wp.length ≤ remaining ∧ wp ∉ removed then
      if allCloseZero (wp.headD idOp) then
        compat_sub wp fuel (remaining - wp.length, removed ++ [wp], hasF)
      else
        compat_sub wp fuel (remaining - wp.length, removed, true)
    else (remaining, removed, hasF)

/-- The `for x in self.wyckoffs: for wp in x:` greedy subtraction of
`check_compatible`, folded over the flattened Wyckoff list. -/
def compat_fold : List WyckoffPos → ℕ × List WyckoffPos × Bool →
    ℕ × List WyckoffPos × Bool
  | [], st => st
  | wp :: rest, st => compat_fold rest (compat_sub wp (st.1 + 1) st)

/-- The `for numIon in self.numIons` loop of `check_compatible`.
`nLast = N_site[-1]` is the multiplicity of the last organized group and
`opLast = self.wyckoffs[-1][-1][0]`. -/
def check_compatible_go (wyckoffs : OrganizedW) (nLast : ℕ) (opLast : SymmOpQ) :
    List ℕ → List WyckoffPos × Bool → CompatRes
  | [], (_, hasF) => if hasF then .ok else .zerodof
  | numIon :: rest, (removed, hasF) =>
    if numIon % nLast > 0 then .incompatible
    else
      if allEntriesNonzero opLast then
        check_compatible_go wyckoffs nLast opLast rest (removed, true)
      else
        let st := compat_fold wyckoffs.flatten (numIon, removed, hasF)
        if st.1 ≠ 0 then .incompatible
        else check_compatible_go wyckoffs nLast opLast rest (st.2.1, st.2.2)

/-- `random_crystal.check_compatible` from `crystal.py`. -/
def check_compatible (wyckoffs : OrganizedW) (numIons : List ℕ) : CompatRes :=
  let nLast := ((wyckoffs.getLastD []).headD []).length
  let opLast := ((wyckoffs.getLastD []).getLastD []).headD idOp
  check_compatible_go wyckoffs nLast opLast numIons ([], false)

/-! ### `random_crystal.generate_crystal` -/

/-- Outcome of `random_crystal.generate_crystal`:
* `incompatible`: `check_compatible` returned `False`; the source prints
  `Msg1` once, sets `self.struct = None` and `self.valid = False` and
  returns before any lattice sampling or atom placement;
* `exited`: the `sys.exit(0)` branch taken when the cell volume differs
  from the requested volume by more than 1;
* `ok coords sites`: success (`self.valid = True`) with the flattened
  `final_coor` and `final_site` lists;
* `failed`: `generate_lattice` returned `None` or all outer cycles were
  exhausted (`Msg2`, `self.valid = False`). -/
inductive GenResult where
  | incompatible
  | exited
  | ok (coords : List Vec3) (sites : List ℕ)
  | failed
deriving DecidableEq, Repr

/-- The static data of a `random_crystal` instance: the organized Wyckoff
list of the space group, the species (chemical symbols modelled as ℕ tags),
the already-scaled per-species counts `self.numIons`, and the covalent
radius table. -/
structure GenEnv where
  wyckoffs : OrganizedW
  species : List ℕ
  numIons : List ℕ
  radius : ℕ → ℚ

/-- The random and floating-point inputs of one `generate_crystal` run over
an abstract lattice type `Λ` (the value of `para2matrix(cell_para)`):
* `lattice c1`: result of `generate_lattice` in outer cycle `c1`;
* `volMismatch`: the float test `abs(volume - det(cell_matrix)) > 1.0`;
* `dist`, `center`, `dmin`, `checkW`: the floating-point geometry
  subroutines `distance(·, lattice)`, `get_center(·, lattice)`, the
  `np.min(cdist(...))` kernel of `check_distance`, and
  `check_wyckoff_position(·, sg, exact_translation=False)`;
* `branch`, `pick`, `point`: the random draws of `choose_wyckoff` and the
  seed point `np.random.random(3)`, indexed by
  (outer cycle, middle cycle, species index, inner cycle). -/
structure GenOracle (Λ : Type) where
  lattice : ℕ → Option Λ
  volMismatch : Λ → Bool
  dist : Λ → Vec3 → ℚ
  center : Λ → List Vec3 → Vec3
  dmin : Λ → List Vec3 → List Vec3 → ℚ
  checkW : List Vec3 → Option ℕ
  branch : ℕ → ℕ → ℕ → ℕ → Bool
  pick : ℕ → ℕ → ℕ → ℕ → ℕ
  point : ℕ → ℕ → ℕ → ℕ → Vec3

/-- The `for cycle3 in range(max3)` loop of `generate_crystal` for one
species.  State: inner cycle counter, `numIon_added`, `coordinates_tmp`,
`sites_tmp`.  The returned `Bool` records whether the loop exited through
the `break` (which in the source also copies the `_tmp` accumulators into
the `_total` accumulators). -/
def cycle3_loop {Λ : Type} (env : GenEnv) (O : GenOracle Λ) (lat : Λ)
    (c1 c2 si : ℕ) (numIon : ℕ) (specie : ℕ) (tol : ℚ) :
    ℕ → ℕ → ℕ → List (List Vec3) → List ℕ →
    (ℕ × List (List Vec3) × List ℕ) × Bool
  | 0, _, added, tmp, sites => ((added, tmp, sites), false)
  | fuel + 1, c3, added, tmp, sites =>
    match choose_wyckoff env.wyckoffs (numIon - added)
        (O.branch c1 c2 si c3) (O.pick c1 c2 si c3) with
    | none => cycle3_loop env O lat c1 c2 si numIon specie tol fuel (c3 + 1) added tmp sites
    | some ops =>
      let pt := O.point c1 c2 si c3
      let coords := ops.map fun op => op.operate pt
      let mres := merge_coordinate (O.dist lat) (O.center lat) O.checkW
        env.wyckoffs tol (coords.length + 1) coords
      match mres.2 with
      | none => cycle3_loop env O lat c1 c2 si numIon specie tol fuel (c3 + 1) added tmp sites
      | some _ =>
        let w := mres.1.map wrap3
        let st :=
          if check_distance tmp w sites specie (O.dmin lat) env.radius 0 1 then
            (added + w.length, tmp ++ [w], sites ++ [specie])
          else (added, tmp, sites)
        if st.1 = numIon then (st, true)
        else cycle3_loop env O lat c1 c2 si numIon specie tol fuel (c3 + 1) st.1 st.2.1 st.2.2

/-- The `for numIon, specie in zip(self.numIons, self.species)` loop of
`generate_crystal`.  Carries `(coordinates_tmp, sites_tmp)` and
`(coordinates_total, sites_total)`; returns whether every species met its
count, together with the final `_total` accumulators. -/
def add_species {Λ : Type} (env : GenEnv) (O : GenOracle Λ) (lat : Λ)
    (c1 c2 m3 : ℕ) :
    ℕ → List (ℕ × ℕ) → List (List Vec3) → List ℕ → List (List Vec3) → List ℕ →
    Bool × List (List Vec3) × List ℕ
  | _, [], _, _, totC, totS => (true, totC, totS)
  | si, (numIon, specie) :: rest, tmp, sites, totC, totS =>
    let tol := max ((1/2 : ℚ) * env.radius specie) 1
    let r := cycle3_loop env O lat c1 c2 si numIon specie tol m3 0 0 tmp sites
    let totC' := if r.2 then r.1.2.1 else totC
    let totS' := if r.2 then r.1.2.2 else totS
    if r.1.1 = numIon then
      add_species env O lat c1 c2 m3 (si + 1) rest r.1.2.1 r.1.2.2 totC' totS'
    else (false, totC', totS')

/-- The `for cycle2 in range(max2)` loop: start the `_tmp` accumulators from
the `_total` accumulators, try to place all species, and on failure reset
the `_total` accumulators to empty and retry. -/
def cycle2_loop {Λ : Type} (env : GenEnv) (O : GenOracle Λ) (lat : Λ)
    (c1 m3 : ℕ) :
    ℕ → ℕ → List (List Vec3) → List ℕ → Option (List (List Vec3) × List ℕ)
  | 0, _, _, _ => none
  | fuel + 1, c2, totC, totS =>
    let r := add_species env O lat c1 c2 m3 0 (env.numIons.zip env.species)
      totC totS totC totS
    if r.1 then some (r.2.1, r.2.2)
    else cycle2_loop env O lat c1 m3 fuel (c2 + 1) [] []

/-- Flattening of the success branch: `for coor, ele in
zip(coordinates_total, sites_total): for x in coor: final_site.append(ele)`. -/
def flatten_sites (orbits : List (List Vec3)) (sites : List ℕ) : List ℕ :=
  ((orbits.zip sites).map fun p => List.replicate p.1.length p.2).flatten

/-- The `for cycle1 in range(max1)` loop: sample a lattice (a `None` breaks
out to the failure return), check the volume (`sys.exit(0)` on mismatch),
and run the middle loop. -/
def cycle1_loop {Λ : Type} (env : GenEnv) (O : GenOracle Λ) (m2 m3 : ℕ) :
    ℕ → ℕ → GenResult
  | 0, _ => .failed
  | fuel + 1, c1 =>
    match O.lattice c1 with
    | none => .failed
    | some lat =>
      if O.volMismatch lat then .exited
      else
        match cycle2_loop env O lat c1 m3 m2 0 [] [] with
        | some r => .ok r.1.flatten (flatten_sites r.1 r.2)
        | none => cycle1_loop env O m2 m3 fuel (c1 + 1)

/-- `random_crystal.generate_crystal` from `crystal.py` (with the default
attempt budgets `max1 = max2 = max3 = 30`, reduced to 5/5/5 when
`check_compatible` reports zero degrees of freedom). -/
def generate_crystal {Λ : Type} (env : GenEnv) (O : GenOracle Λ) : GenResult :=
  match check_compatible env.wyckoffs env.numIons with
  | .incompatible => .incompatible
  | .zerodof => cycle1_loop env O 5 5 5 0
  | .ok => cycle1_loop env O 30 30 30 0

/-! ### Real-valued lattice algebra: `para2matrix`, `matrix2para`,
`generate_lattice`

These model the floating-point code over `ℝ` (the ideal reading of IEEE
arithmetic). -/

noncomputable section

/-- Cell parameters `[a, b, c, alpha, beta, gamma]` (angles in radians). -/
structure Cell6 where
  a : ℝ
  b : ℝ
  c : ℝ
  alpha : ℝ
  beta : ℝ
  gamma : ℝ

/-- `para2matrix(cell_para)` from `crystal.py` with the default
`format='lower'` (the only format the generator uses): `a` along x, `b` in
the x-y plane. -/
def para2matrix (p : Cell6) : Matrix (Fin 3) (Fin 3) ℝ :=
  let c1 := p.c * Real.cos p.beta
  let c2 := p.c * (Real.cos p.alpha - Real.cos p.beta * Real.cos p.gamma) / Real.sin p.gamma
  !![p.a, 0, 0;
     p.b * Real.cos p.gamma, p.b * Real.sin p.gamma, 0;
     c1, c2, Real.sqrt (p.c ^ 2 - c1 ^ 2 - c2 ^ 2)]

/-- `np.linalg.norm` of a row vector. -/
def norm3 (v : Fin 3 → ℝ) : ℝ := Real.sqrt (v 0 ^ 2 + v 1 ^ 2 + v 2 ^ 2)

/-- `np.dot` of two row vectors. -/
def dot3 (u v : Fin 3 → ℝ) : ℝ := u 0 * v 0 + u 1 * v 1 + u 2 * v 2

/-- `angle(v1, v2)` from `operations.py`, including its `np.isclose`
special cases on the *unnormalized* dot product (numpy defaults
`rtol = 1e-5`, `atol = 1e-8`, so the band around `±1` is `1e-8 + 1e-5`). -/
def angle (v1 v2 : Fin 3 → ℝ) : ℝ :=
  if |dot3 v1 v2 - 1| ≤ 1e-8 + 1e-5 * 1 then 0
  else if |dot3 v1 v2 + 1| ≤ 1e-8 + 1e-5 * 1 then Real.pi
  else Real.arccos (dot3 v1 v2 / (norm3 v1 * norm3 v2))

/-- `matrix2para(matrix)` from `crystal.py` (radians). -/
def matrix2para (m : Matrix (Fin 3) (Fin 3) ℝ) : Cell6 :=
  { a := norm3 (m 0), b := norm3 (m 1), c := norm3 (m 2),
    alpha := angle (m 1) (m 2), beta := angle (m 0) (m 2),
    gamma := angle (m 0) (m 1) }

/-- `np.cbrt`: the real cube root (defined for negative arguments as well). -/
def cbrt (x : ℝ) : ℝ :=
  if 0 ≤ x then x ^ ((1 : ℝ) / 3) else -((-x) ^ ((1 : ℝ) / 3))

/-- The random draws consumed by one iteration of `generate_lattice`:
`angA/angB/angG` are the `matrix2para(random_shear_matrix(...))` angles of
the triclinic branch, `betaM` the `gaussian(minangle, maxangle)` draw of
the monoclinic branch, and `exp r0/r1/r2` the components of
`random_vector()` (which are exponentials of normal draws, hence of
arbitrary reals). -/
structure LatDraw where
  angA : ℝ
  angB : ℝ
  angG : ℝ
  betaM : ℝ
  r0 : ℝ
  r1 : ℝ
  r2 : ℝ

/-- The parameter 6-tuple built by one iteration of `generate_lattice`,
before the acceptance test, by crystal family of `sg`. -/
def lattice_params (sg : ℕ) (volume : ℝ) (d : LatDraw) : Cell6 :=
  let v0 := Real.exp d.r0
  let v1 := Real.exp d.r1
  let v2 := Real.exp d.r2
  let xyz := v0 * v1 * v2
  if sg ≤ 2 then
    let x := Real.sqrt (1 - Real.cos d.angA ^ 2 - Real.cos d.angB ^ 2 -
      Real.cos d.angG ^ 2 +
      2 * (Real.cos d.angA * Real.cos d.angB * Real.cos d.angG))
    let abc := volume / x
    ⟨v0 * cbrt abc / cbrt xyz, v1 * cbrt abc / cbrt xyz,
     v2 * cbrt abc / cbrt xyz, d.angA, d.angB, d.angG⟩
  else if sg ≤ 15 then
    let x := Real.sin d.betaM
    let abc := volume / x
    ⟨v0 * cbrt abc / cbrt xyz, v1 * cbrt abc / cbrt xyz,
     v2 * cbrt abc / cbrt xyz, Real.pi / 2, d.betaM, Real.pi / 2⟩
  else if sg ≤ 74 then
    let abc := volume / 1
    ⟨v0 * cbrt abc / cbrt xyz, v1 * cbrt abc / cbrt xyz,
     v2 * cbrt abc / cbrt xyz, Real.pi / 2, Real.pi / 2, Real.pi / 2⟩
  else if sg ≤ 142 then
    let c := v2 / (v0 * v1) * cbrt (volume / 1)
    let a := Real.sqrt ((volume / 1) / c)
    ⟨a, a, c, Real.pi / 2, Real.pi / 2, Real.pi / 2⟩
  else if sg ≤ 194 then
    let x := Real.sqrt 3 / 2
    let c := v2 / (v0 * v1) * cbrt (volume / x)
    let a := Real.sqrt ((volume / x) / c)
    ⟨a, a, c, Real.pi / 2, Real.pi / 2, 2 * Real.pi / 3⟩
  else
    let s := volume ^ ((1 : ℝ) / 3)
    ⟨s, s, s, Real.pi / 2, Real.pi / 2, Real.pi / 2⟩

/-- The acceptance test of `generate_lattice` (lines 776–788 of
`crystal.py`): the `minvec < maxvec` gate together with the thirteen-part
condition on vector lengths, projected lengths, angles and ratios. -/
def lattice_accept (p : Cell6) (minvec minangle max_ratio : ℝ) : Prop :=
  let maxangle := Real.pi - minangle
  let maxvec := p.a * p.b * p.c / minvec ^ 2
  let smallvec := min (p.a * Real.cos (max p.beta p.gamma))
    (min (p.b * Real.cos (max p.alpha p.gamma))
      (p.c * Real.cos (max p.alpha p.beta)))
  minvec < maxvec ∧
    minvec < p.a ∧ minvec < p.b ∧ minvec < p.c ∧
    p.a < maxvec ∧ p.b < maxvec ∧ p.c < maxvec ∧
    smallvec < minvec ∧
    minangle < p.alpha ∧ minangle < p.beta ∧ minangle < p.gamma ∧
    p.alpha < maxangle ∧ p.beta < maxangle ∧ p.gamma < maxangle ∧
    p.a / p.b < max_ratio ∧ p.a / p.c < max_ratio ∧ p.b / p.c < max_ratio ∧
    p.b / p.a < max_ratio ∧ p.c / p.a < max_ratio ∧ p.c / p.b < max_ratio

open Classical in
/-- `generate_lattice(sg, volume, minvec, minangle, max_ratio, maxattempts)`
from `crystal.py`: try the draws in order, return the first accepted
parameter tuple, `None` after exhausting the attempts. -/
def generate_lattice (sg : ℕ) (volume minvec minangle max_ratio : ℝ) :
    List LatDraw → Option Cell6
  | [] => none
  | dr :: ds =>
    let p := lattice_params sg volume dr
    if lattice_accept p minvec minangle max_ratio then some p
    else generate_lattice sg volume minvec minangle max_ratio ds

end

/-- A concrete oracle for a one-atom generation run: the lattice always
samples, the volume always matches, all distances are large (no merging,
no rejection), and the single Wyckoff position is always recognized. -/
def trivOracle : GenOracle Unit :=
  ⟨fun _ => some (), fun _ => false, fun _ _ => 5, fun _ l => l.headD (0, 0, 0),
   fun _ _ _ => 5, fun _ => some 0, fun _ _ _ _ => true, fun _ _ _ _ => 0,
   fun _ _ _ _ => (0, 0, 0)⟩

/-! ## Supporting lemmas -/

theorem choose_from_mem {l : List WyckoffPos} {k : ℕ} {wp : WyckoffPos}
    (h : choose_from l k = some wp) : wp ∈ l :=
  List.get?_mem h

theorem choose_from_ne_none {l : List WyckoffPos} (k : ℕ) (hl : l ≠ []) :
    choose_from l k ≠ none := by
  intro hnone
  have hlen : l.length ≤ k % l.length := List.get?_eq_none.mp hnone
  have hpos : 0 < l.length := List.length_pos.mpr hl
  exact absurd (Nat.mod_lt k hpos) (by omega)

/-! ## C10: `check_distance` with an empty existing coordinate list -/

/-- C10: `check_distance` returns `True` whenever the existing coordinate
list `coord1` is empty, for every candidate coordinate list, species
assignment, distance kernel (lattice), PBC setting and `d_factor`;
consequently the first orbit added to an empty structure is never rejected
by the distance check. -/
theorem check_distance_empty_existing (coord2 : List Vec3) (specie1 : List ℕ)
    (specie2 : ℕ) (dmin : List Vec3 → List Vec3 → ℚ) (radius : ℕ → ℚ)
    (PBC : ℕ) (d_factor : ℚ) :
    check_distance [] coord2 specie1 specie2 dmin radius PBC d_factor = true := by
  simp [check_distance]

/-! ## C8: `choose_wyckoff` -/

/-- C8: for every organized Wyckoff list (nonempty groups of equal-length
positions) and remaining count `number`, `choose_wyckoff` returns `False`
(`none`) iff no Wyckoff position in the list has multiplicity at most
`number`, and on both random branches any returned position has
multiplicity at most `number`. -/
theorem choose_wyckoff_spec (wyckoffs : OrganizedW) (number : ℕ)
    (branch : Bool) (k : ℕ)
    (hne : ∀ g ∈ wyckoffs, g ≠ [])
    (horg : ∀ g ∈ wyckoffs, ∀ wp ∈ g, wp.length = (g.headD []).length) :
    (choose_wyckoff wyckoffs number branch k = none ↔
      ∀ wp ∈ wyckoffs.flatten, number < wp.length) ∧
    (∀ wp, choose_wyckoff wyckoffs number branch k = some wp →
      wp.length ≤ number) := by
  unfold choose_wyckoff
  by_cases hbr : branch
  · simp only [hbr, if_true]
    cases hfind : wyckoffs.find? (fun g => decide ((g.headD []).length ≤ number)) with
    | none =>
      have hall := List.find?_eq_none.mp hfind
      constructor
      · simp only [true_iff]
        intro wp hwp
        obtain ⟨g, hg, hwpg⟩ := List.mem_flatten.mp hwp
        have := hall g hg
        simp only [decide_eq_true_eq] at this
        have hlen := horg g hg wp hwpg
        omega
      · intro wp hwp
        exact Option.noConfusion hwp
    | some g =>
      have hg : g ∈ wyckoffs := List.mem_of_find?_eq_some hfind
      have hgle : (g.headD []).length ≤ number := by
        have := List.find?_some hfind
        simpa using this
      constructor
      · constructor
        · intro hnone
          exact absurd hnone (choose_from_ne_none k (hne g hg))
        · intro hall
          cases hcf : choose_from g k with
          | none => exact hcf
          | some wp =>
            have hwp : wp ∈ g := choose_from_mem hcf
            have : number < wp.length :=
              hall wp (List.mem_flatten.mpr ⟨g, hg, hwp⟩)
            have := horg g hg wp hwp
            omega
      · intro wp hwp
        have hmem : wp ∈ g := choose_from_mem hwp
        have := horg g hg wp hmem
        omega
  · simp only [hbr, if_false]
    set good := (wyckoffs.filter fun g =>
      decide ((g.headD []).length ≤ number)).flatten with hgood
    have hmem_good : ∀ wp ∈ good, wp.length ≤ number := by
      intro wp hwp
      obtain ⟨g, hg, hwpg⟩ := List.mem_flatten.mp hwp
      obtain ⟨hgw, hgp⟩ := List.mem_filter.mp hg
      simp only [decide_eq_true_eq] at hgp
      have := horg g hgw wp hwpg
      omega
    by_cases hpos : 0 < good.length
    · simp only [hpos, if_true]
      have hgne : good ≠ [] := by
        intro h; rw [h] at hpos; simp at hpos
      constructor
      · constructor
        · intro hnone
          exact absurd hnone (choose_from_ne_none k hgne)
        · intro hall
          obtain ⟨wp, hwp⟩ := List.exists_mem_of_ne_nil good hgne
          have h1 : wp.length ≤ number := hmem_good wp hwp
          obtain ⟨g, hg, hwpg⟩ := List.mem_flatten.mp hwp
          have hgw := (List.mem_filter.mp hg).1
          have : number < wp.length :=
            hall wp (List.mem_flatten.mpr ⟨g, hgw, hwpg⟩)
          omega
      · intro wp hwp
        exact hmem_good wp (choose_from_mem hwp)
    · simp only [hpos, if_false]
      have hgnil : good = [] := by
        cases h : good with
        | nil => rfl
        | cons a l => rw [h] at hpos; simp at hpos
      constructor
      · refine iff_of_true rfl ?_
        intro wp hwp
        obtain ⟨g, hg, hwpg⟩ := List.mem_flatten.mp hwp
        have hnotin : ¬ ((g.headD []).length ≤ number) := by
          intro hle
          have : g ∈ wyckoffs.filter fun g =>
              decide ((g.headD []).length ≤ number) :=
            List.mem_filter.mpr ⟨hg, by simpa using hle⟩
          have : wp ∈ good := List.mem_flatten.mpr ⟨g, this, hwpg⟩
          rw [hgnil] at this
          simp at this
        have := horg g hg wp hwpg
        omega
      · intro wp hwp
        exact Option.noConfusion hwp

/-- Witness for C8 at a concrete organized Wyckoff list
(`[[2 ops], [2 ops]], [[1 op]]`) with remaining count 1. -/
theorem choose_wyckoff_spec_witness :
    (choose_wyckoff [[[idOp, idOp], [idOp, idOp]], [[idOp]]] 1 true 0 = none ↔
      ∀ wp ∈ ([[[idOp, idOp], [idOp, idOp]], [[idOp]]] : OrganizedW).flatten,
        1 < wp.length) ∧
    (∀ wp, choose_wyckoff [[[idOp, idOp], [idOp, idOp]], [[idOp]]] 1 true 0 = some wp →
      wp.length ≤ 1) :=
  choose_wyckoff_spec [[[idOp, idOp], [idOp, idOp]], [[idOp]]] 1 true 0
    (by decide) (by decide)

/-! ## Lemmas on the DFS of `connected_components` -/

theorem visit_list_mono (g : List (List ℕ)) (fuel : ℕ)
    (hv : ∀ el seen, seen ⊆ visit g fuel el seen) :
    ∀ l seen, seen ⊆ visit_list g fuel l seen
  | [], seen => by simp only [visit_list]; exact fun _ h => h
  | x :: xs, seen => by
    simp only [visit_list]
    by_cases hx : x ∈ seen
    · rw [if_pos hx]; exact visit_list_mono g fuel hv xs seen
    · rw [if_neg hx]
      refine List.Subset.trans ?_ (visit_list_mono g fuel hv xs _)
      refine List.Subset.trans ?_ (hv x (seen ++ [x]))
      exact fun y hy => List.mem_append_left _ hy

theorem visit_mono (g : List (List ℕ)) :
    ∀ fuel el seen, seen ⊆ visit g fuel el seen
  | 0, _, seen => by simp only [visit]; exact fun _ h => h
  | fuel + 1, el, seen => by
    simp only [visit]
    exact visit_list_mono g fuel (visit_mono g fuel) _ _

theorem visit_list_mem (g : List (List ℕ)) (fuel : ℕ) :
    ∀ l seen y, y ∈ l → y ∈ visit_list g fuel l seen
  | [], _, y, hy => absurd hy (by simp)
  | x :: xs, seen, y, hy => by
    simp only [visit_list]
    by_cases hx : x ∈ seen
    · rw [if_pos hx]
      rcases List.mem_cons.mp hy with h | h
      · exact visit_list_mono g fuel (visit_mono g fuel) xs seen (h ▸ hx)
      · exact visit_list_mem g fuel xs seen y h
    · rw [if_neg hx]
      rcases List.mem_cons.mp hy with h | h
      · subst h
        exact visit_list_mono g fuel (visit_mono g fuel) xs _
          (visit_mono g fuel y (seen ++ [y]) (by simp))
      · exact visit_list_mem g fuel xs _ y h

/-- First-level closure: every listed neighbor of `el` ends up in
`add_neighbors(el, seen)`. -/
theorem visit_neighbors (g : List (List ℕ)) (fuel el : ℕ) (seen : List ℕ)
    {y : ℕ} (hy : y ∈ g.getD el []) : y ∈ visit g (fuel + 1) el seen := by
  simp only [visit]
  exact visit_list_mem g fuel _ seen y hy

/-! ## Lemmas on `short_pairs`, `add_edges` and `find_short_dist` -/

theorem mem_short_pairs {coor : List Vec3} {dist : Vec3 → ℚ} {tol : ℚ}
    {p : ℕ × ℕ × ℚ} (hp : p ∈ short_pairs coor dist tol) :
    p.1 < p.2.1 ∧ p.2.1 < coor.length ∧ p.2.2 ≤ tol ∧
      p.2.2 = dist (sub3 (coor.getD p.1 (0,0,0)) (coor.getD p.2.1 (0,0,0))) := by
  unfold short_pairs at hp
  obtain ⟨i1, hi1, hp2⟩ := List.mem_flatMap.mp hp
  obtain ⟨i2, hi2, hp3⟩ := List.mem_filterMap.mp hp2
  by_cases hlt : i1 < i2
  · rw [if_pos hlt] at hp3
    by_cases hd : dist (sub3 (coor.getD i1 (0,0,0)) (coor.getD i2 (0,0,0))) ≤ tol
    · rw [if_pos hd] at hp3
      cases hp3
      exact ⟨hlt, List.mem_range.mp hi2, hd, rfl⟩
    · rw [if_neg hd] at hp3
      exact Option.noConfusion hp3
  · rw [if_neg hlt] at hp3
    exact Option.noConfusion hp3

theorem short_pairs_of_close {coor : List Vec3} {dist : Vec3 → ℚ} {tol : ℚ}
    {i j : ℕ} (hij : i < j) (hj : j < coor.length)
    (hd : dist (sub3 (coor.getD i (0,0,0)) (coor.getD j (0,0,0))) ≤ tol) :
    (i, j, dist (sub3 (coor.getD i (0,0,0)) (coor.getD j (0,0,0)))) ∈
      short_pairs coor dist tol := by
  unfold short_pairs
  refine List.mem_flatMap.mpr ⟨i, List.mem_range.mpr (lt_trans hij hj), ?_⟩
  refine List.mem_filterMap.mpr ⟨j, List.mem_range.mpr hj, ?_⟩
  rw [if_pos hij, if_pos hd]

/-- The fold `min` with an upper-bounding initial accumulator is attained
in the list. -/
theorem foldr_min_mem : ∀ (l : List ℚ) (a : ℚ), l ≠ [] → (∀ x ∈ l, x ≤ a) →
    l.foldr min a ∈ l
  | [x], a, _, h => by
    have : min x a = x := min_eq_left (h x (by simp))
    simp [this]
  | x :: y :: l, a, _, h => by
    have hyl := foldr_min_mem (y :: l) a (by simp)
      (fun z hz => h z (List.mem_cons_of_mem x hz))
    rcases le_total x ((y :: l).foldr min a) with hle | hle
    · rw [List.foldr_cons, min_eq_left hle]; simp
    · rw [List.foldr_cons, min_eq_right hle]
      exact List.mem_cons_of_mem x hyl

theorem getD_set_append_mono {g : List (List ℕ)} {i n e x : ℕ}
    (hx : x ∈ g.getD n []) :
    x ∈ (g.set i (g.getD i [] ++ [e])).getD n [] := by
  simp only [List.getD_eq_getElem?_getD] at hx ⊢
  rw [List.getElem?_set]
  by_cases hin : i = n
  · subst hin
    rw [if_pos rfl]
    by_cases hlt : i < g.length
    · rw [if_pos hlt]
      simp only [Option.getD_some, List.getD_eq_getElem?_getD]
      exact List.mem_append_left _ hx
    · rw [List.getElem?_eq_none (le_of_not_lt hlt)] at hx
      simp at hx
  · rw [if_neg hin]
    exact hx

theorem getD_set_append_self {g : List (List ℕ)} {i e : ℕ} (hi : i < g.length) :
    e ∈ (g.set i (g.getD i [] ++ [e])).getD i [] := by
  rw [List.getD_eq_getElem?_getD, List.getElem?_set_self hi]
  simp

theorem add_edges_length : ∀ (ps : List (ℕ × ℕ × ℚ)) (g : List (List ℕ)),
    (add_edges ps g).length = g.length
  | [], _ => rfl
  | (_, _, _) :: ps, g => by
    simp only [add_edges]
    rw [add_edges_length ps]
    simp

theorem add_edges_mono : ∀ (ps : List (ℕ × ℕ × ℚ)) (g : List (List ℕ))
    {n x : ℕ}, x ∈ g.getD n [] → x ∈ (add_edges ps g).getD n []
  | [], _, _, _, hx => hx
  | (_, _, _) :: ps, _, _, _, hx => by
    simp only [add_edges]
    exact add_edges_mono ps _ (getD_set_append_mono (getD_set_append_mono hx))

theorem add_edges_edge : ∀ (ps : List (ℕ × ℕ × ℚ)) (g : List (List ℕ))
    {i j : ℕ} {d : ℚ}, (i, j, d) ∈ ps → i < g.length → j < g.length →
    j ∈ (add_edges ps g).getD i [] ∧ i ∈ (add_edges ps g).getD j []
  | [], _, _, _, _, h, _, _ => absurd h (by simp)
  | (a, b, c) :: ps, g, i, j, d, hmem, hi, hj => by
    rcases List.mem_cons.mp hmem with heq | htail
    · obtain ⟨rfl, rfl, rfl⟩ := Prod.mk.injEq .. ▸ heq
      simp only [add_edges]
      constructor
      · exact add_edges_mono ps _ (getD_set_append_mono (getD_set_append_self hi))
      · exact add_edges_mono ps _
          (getD_set_append_self (by rw [List.length_set]; exact hj))
    · simp only [add_edges]
      exact add_edges_edge ps _ htail (by simp [List.length_set, hi])
        (by simp [List.length_set, hj])

theorem find_short_dist_graph_length (coor : List Vec3) (dist : Vec3 → ℚ)
    (tol : ℚ) : (find_short_dist coor dist tol).2.length = coor.length := by
  unfold find_short_dist
  by_cases h : (short_pairs coor dist tol).length > 0
  · rw [if_pos h]
    simp [add_edges_length]
  · rw [if_neg h]
    simp

theorem find_short_dist_fst_subset {coor : List Vec3} {dist : Vec3 → ℚ}
    {tol : ℚ} {p : ℕ × ℕ × ℚ} (hp : p ∈ (find_short_dist coor dist tol).1) :
    p ∈ short_pairs coor dist tol := by
  unfold find_short_dist at hp
  by_cases h : (short_pairs coor dist tol).length > 0
  · rw [if_pos h] at hp
    exact (List.mem_filter.mp hp).1
  · rw [if_neg h] at hp
    exact hp

/-- The filtered pair list of `find_short_dist` when pairs exist. -/
theorem find_short_dist_fst_eq {coor : List Vec3} {dist : Vec3 → ℚ} {tol : ℚ}
    (hpos : (short_pairs coor dist tol).length > 0) :
    (find_short_dist coor dist tol).1 =
      (short_pairs coor dist tol).filter
        (fun q => q.2.2 ≤
          ((short_pairs coor dist tol).map (fun r => r.2.2)).foldr min tol +
            1/1000) := by
  unfold find_short_dist
  rw [if_pos hpos]

/-- The graph of `find_short_dist` when pairs exist. -/
theorem find_short_dist_snd_eq {coor : List Vec3} {dist : Vec3 → ℚ} {tol : ℚ}
    (hpos : (short_pairs coor dist tol).length > 0) :
    (find_short_dist coor dist tol).2 =
      add_edges ((short_pairs coor dist tol).filter
        (fun q => q.2.2 ≤
          ((short_pairs coor dist tol).map (fun r => r.2.2)).foldr min tol +
            1/1000))
        ((List.range coor.length).map fun _ => ([] : List ℕ)) := by
  unfold find_short_dist
  rw [if_pos hpos]

/-- If the unfiltered pair list is nonempty, the minimum-distance pair
survives the `≤ min + 1e-3` filter, so `find_short_dist` returns a nonempty
pair list. -/
theorem find_short_dist_fst_ne_nil {coor : List Vec3} {dist : Vec3 → ℚ}
    {tol : ℚ} (h : short_pairs coor dist tol ≠ []) :
    (find_short_dist coor dist tol).1 ≠ [] := by
  have hpos : (short_pairs coor dist tol).length > 0 := List.length_pos.mpr h
  rw [find_short_dist_fst_eq hpos]
  have hmap_ne : (short_pairs coor dist tol).map (fun p => p.2.2) ≠ [] := by
    simpa using h
  have hub : ∀ x ∈ (short_pairs coor dist tol).map (fun p => p.2.2), x ≤ tol := by
    intro x hx
    obtain ⟨p, hp, rfl⟩ := List.mem_map.mp hx
    exact (mem_short_pairs hp).2.2.1
  have hmem := foldr_min_mem _ tol hmap_ne hub
  obtain ⟨p, hp, hpval⟩ := List.mem_map.mp hmem
  intro hnil
  have hpf : p ∈ (short_pairs coor dist tol).filter
      (fun q => decide (q.2.2 ≤
        ((short_pairs coor dist tol).map (fun r => r.2.2)).foldr min tol +
          1/1000)) := by
    refine List.mem_filter.mpr ⟨hp, ?_⟩
    rw [hpval]
    simp only [decide_eq_true_eq]
    linarith
  rw [hnil] at hpf
  simp at hpf

/-- A nonempty filtered pair list yields a mutual edge between two distinct
valid indices in the graph built by `find_short_dist`. -/
theorem find_short_dist_edge {coor : List Vec3} {dist : Vec3 → ℚ} {tol : ℚ}
    (h : (find_short_dist coor dist tol).1 ≠ []) :
    ∃ i j, i ≠ j ∧ i < coor.length ∧ j < coor.length ∧
      j ∈ (find_short_dist coor dist tol).2.getD i [] ∧
      i ∈ (find_short_dist coor dist tol).2.getD j [] := by
  obtain ⟨p, hp⟩ := List.exists_mem_of_ne_nil _ h
  have hbounds := mem_short_pairs (find_short_dist_fst_subset hp)
  have hpos : (short_pairs coor dist tol).length > 0 := by
    rcases Nat.eq_zero_or_pos (short_pairs coor dist tol).length with h0 | h0
    · exfalso
      apply h
      unfold find_short_dist
      rw [if_neg (by omega)]
      exact List.length_eq_zero.mp h0
    · exact h0
  have hp' : p ∈ (short_pairs coor dist tol).filter
      (fun q => decide (q.2.2 ≤
        ((short_pairs coor dist tol).map (fun r => r.2.2)).foldr min tol +
          1/1000)) := by
    rw [← find_short_dist_fst_eq hpos]
    exact hp
  have hglen : ((List.range coor.length).map fun _ => ([] : List ℕ)).length =
      coor.length := by simp
  have hedge := add_edges_edge _
    ((List.range coor.length).map fun _ => ([] : List ℕ))
    (show ((p.1, p.2.1, p.2.2) : ℕ × ℕ × ℚ) ∈ _ from hp')
    (by rw [hglen]; omega) (by rw [hglen]; omega)
  refine ⟨p.1, p.2.1, by omega, by omega, hbounds.2.1, ?_, ?_⟩
  · rw [find_short_dist_snd_eq hpos]; exact hedge.1
  · rw [find_short_dist_snd_eq hpos]; exact hedge.2

/-! ## Counting lemmas for `connected_components` -/

theorem conn_loop_length_le (g : List (List ℕ)) :
    ∀ (fuel : ℕ) (unseen : List ℕ) (sets : List (List ℕ)),
    (conn_loop g fuel unseen sets).length ≤ sets.length + unseen.length := by
  intro fuel
  induction fuel with
  | zero => intro unseen sets; simp [conn_loop]
  | succ fuel ih =>
    intro unseen sets
    match unseen with
    | [] => simp [conn_loop]
    | u :: us =>
      simp only [conn_loop]
      have hrec := ih (((u :: us).dropLast).filter
        (fun y => y ∉ visit g (g.length + 1) ((u :: us).getLastD 0)
          [(u :: us).getLastD 0]))
        (sets ++ [visit g (g.length + 1) ((u :: us).getLastD 0)
          [(u :: us).getLastD 0]])
      have hfle : (((u :: us).dropLast).filter
          (fun y => y ∉ visit g (g.length + 1) ((u :: us).getLastD 0)
            [(u :: us).getLastD 0])).length ≤ us.length := by
        refine le_trans (List.length_filter_le _ _) ?_
        simp
      simp only [List.length_append, List.length_cons, List.length_nil] at hrec ⊢
      omega

theorem conn_loop_length_lt (g : List (List ℕ)) :
    ∀ (fuel : ℕ) (unseen : List ℕ) (sets : List (List ℕ)), unseen.Nodup →
    (∃ i j, i ≠ j ∧ i ∈ unseen ∧ j ∈ unseen ∧
      j ∈ g.getD i [] ∧ i ∈ g.getD j []) →
    (conn_loop g fuel unseen sets).length < sets.length + unseen.length := by
  intro fuel
  induction fuel with
  | zero =>
    intro unseen sets _ hedge
    obtain ⟨i, j, _, hi, _⟩ := hedge
    have : 0 < unseen.length := List.length_pos.mpr (List.ne_nil_of_mem hi)
    simp only [conn_loop]
    omega
  | succ fuel ih =>
    intro unseen sets hnd hedge
    match unseen with
    | [] =>
      obtain ⟨i, j, _, hi, _⟩ := hedge
      simp at hi
    | u :: us =>
      obtain ⟨i, j, hij, hi, hj, hadj1, hadj2⟩ := hedge
      have hne : (u :: us) ≠ [] := by simp
      have hxlast : (u :: us).getLastD 0 = (u :: us).getLast hne := by
        rw [List.getLastD_eq_getLast?, List.getLast?_eq_getLast _ hne]
        rfl
      set x := (u :: us).getLastD 0 with hxdef
      set comp := visit g (g.length + 1) x [x] with hcompdef
      set rest := (u :: us).dropLast with hrestdef
      have hdecomp : rest ++ [x] = u :: us := by
        rw [hxlast, hrestdef]
        exact List.dropLast_append_getLast hne
      have hmem_split : ∀ e, e ∈ (u :: us) → e ∈ rest ∨ e = x := by
        intro e he
        rw [← hdecomp] at he
        rcases List.mem_append.mp he with h1 | h1
        · exact Or.inl h1
        · exact Or.inr (by simpa using h1)
      have hrest_len : rest.length = us.length := by
        rw [hrestdef]; simp
      have hneigh : ∀ y, y ∈ g.getD x [] → y ∈ comp := by
        intro y hy
        rw [hcompdef]
        exact visit_neighbors g g.length x [x] hy
      simp only [conn_loop]
      rw [← hxdef, ← hcompdef, ← hrestdef]
      set unseen' := rest.filter (fun y => y ∉ comp) with hudef
      have hu'_le : unseen'.length ≤ us.length := by
        rw [hudef, ← hrest_len]
        exact List.length_filter_le _ _
      have hnd_rest : rest.Nodup := by
        have hnd' : (rest ++ [x]).Nodup := hdecomp ▸ hnd
        exact (List.nodup_append.mp hnd').1
      have hnd' : unseen'.Nodup := hnd_rest.filter _
      by_cases hcase : i ∈ unseen' ∧ j ∈ unseen'
      · have hrec := ih unseen' (sets ++ [comp]) hnd'
          ⟨i, j, hij, hcase.1, hcase.2, hadj1, hadj2⟩
        simp only [List.length_append, List.length_cons, List.length_nil] at hrec ⊢
        omega
      · -- some endpoint was removed in this iteration beyond the pop
        have hstrict : unseen'.length < us.length := by
          have hkey : ∃ e, e ∈ rest ∧ e ∈ comp := by
            rcases not_and_or.mp hcase with hni | hnj
            · rcases hmem_split i hi with hir | hix
              · refine ⟨i, hir, ?_⟩
                by_contra hic
                exact hni (List.mem_filter.mpr ⟨hir, by simpa using hic⟩)
              · -- i is the popped vertex; its neighbor j is in rest and in comp
                rcases hmem_split j hj with hjr | hjx
                · exact ⟨j, hjr, hneigh j (hix ▸ hadj1)⟩
                · exact absurd (hix.trans hjx.symm) hij
            · rcases hmem_split j hj with hjr | hjx
              · refine ⟨j, hjr, ?_⟩
                by_contra hjc
                exact hnj (List.mem_filter.mpr ⟨hjr, by simpa using hjc⟩)
              · rcases hmem_split i hi with hir | hix
                · exact ⟨i, hir, hneigh i (hjx ▸ hadj2)⟩
                · exact absurd (hix.trans hjx.symm) hij
          obtain ⟨e, her, hec⟩ := hkey
          have : (rest.filter (fun y => y ∉ comp)).length < rest.length := by
            refine List.length_filter_lt_length_iff_exists.mpr ?_
            exact ⟨e, her, by simpa using hec⟩
          rw [hudef]
          omega
        have hrec := conn_loop_length_le g fuel unseen' (sets ++ [comp])
        simp only [List.length_append, List.length_cons, List.length_nil] at hrec ⊢
        omega

/-- With a mutual edge between two distinct valid indices,
`connected_components` returns strictly fewer components than vertices. -/
theorem connected_components_lt {g : List (List ℕ)}
    (hedge : ∃ i j, i ≠ j ∧ i < g.length ∧ j < g.length ∧
      j ∈ g.getD i [] ∧ i ∈ g.getD j []) :
    (connected_components g).length < g.length := by
  obtain ⟨i, j, hij, hi, hj, h1, h2⟩ := hedge
  have := conn_loop_length_lt g g.length (List.range g.length) []
    (List.nodup_range _)
    ⟨i, j, hij, List.mem_range.mpr hi, List.mem_range.mpr hj, h1, h2⟩
  simpa using this

/-! ## C6: termination of `merge_coordinate` -/

theorem merged_of_length (coor : List Vec3) (dist : Vec3 → ℚ)
    (center : List Vec3 → Vec3) (tol : ℚ) :
    (merged_of coor dist center tol).length =
      (connected_components (find_short_dist coor dist tol).2).length := by
  unfold merged_of
  simp

/-- Strict decrease: whenever the merge branch fires (nonempty filtered
pair list), the merged list is strictly shorter than the input. -/
theorem merged_of_length_lt {coor : List Vec3} {dist : Vec3 → ℚ}
    {center : List Vec3 → Vec3} {tol : ℚ}
    (h : (find_short_dist coor dist tol).1 ≠ []) :
    (merged_of coor dist center tol).length < coor.length := by
  rw [merged_of_length]
  have hlen := find_short_dist_graph_length coor dist tol
  have hedge := find_short_dist_edge h
  obtain ⟨i, j, ha2, hb, hc, hd, he⟩ := hedge
  have : (connected_components (find_short_dist coor dist tol).2).length <
      (find_short_dist coor dist tol).2.length :=
    connected_components_lt
      ⟨i, j, ha2, by rw [hlen]; exact hb, by rw [hlen]; exact hc, hd, he⟩
  omega

/-- Fuel-independence of `merge_coordinate` above `coor.length`. -/
theorem merge_coordinate_fuel (dist : Vec3 → ℚ) (center : List Vec3 → Vec3)
    (checkW : List Vec3 → Option ℕ) (wyckoff : OrganizedW) (tol : ℚ) :
    ∀ (n : ℕ) (coor : List Vec3) (f1 f2 : ℕ), coor.length ≤ n →
    coor.length < f1 → coor.length < f2 →
    merge_coordinate dist center checkW wyckoff tol f1 coor =
    merge_coordinate dist center checkW wyckoff tol f2 coor := by
  intro n
  induction n with
  | zero =>
    intro coor f1 f2 hn h1 h2
    have hc : coor = [] := List.length_eq_zero.mp (Nat.le_zero.mp hn)
    subst hc
    match f1, f2, h1, h2 with
    | _ + 1, _ + 1, _, _ =>
      simp only [merge_coordinate]
      have hfs : (find_short_dist [] dist tol).1 = [] := by
        unfold find_short_dist short_pairs
        simp
      rw [hfs]
      simp
  | succ n ih =>
    intro coor f1 f2 hn h1 h2
    match f1, f2, h1, h2 with
    | a + 1, b + 1, h1, h2 =>
      simp only [merge_coordinate]
      by_cases hp : (find_short_dist coor dist tol).1.length > 0
      · rw [if_pos hp, if_pos hp]
        by_cases hsz : ((wyckoff.getLastD []).headD []).length < coor.length
        · rw [if_pos hsz, if_pos hsz]
          cases hcw : checkW (merged_of coor dist center tol) with
          | none => rfl
          | some idx =>
            have hne : (find_short_dist coor dist tol).1 ≠ [] := by
              intro hnil
              rw [hnil] at hp
              simp at hp
            have hlt : (merged_of coor dist center tol).length < coor.length :=
              merged_of_length_lt hne
            exact ih (merged_of coor dist center tol) a b
              (by omega) (by omega) (by omega)
        · rw [if_neg hsz, if_neg hsz]
      · rw [if_neg hp, if_neg hp]

/-- C6: `merge_coordinate` terminates for every finite input coordinate
list: on every iteration of its loop in which a merge is performed (the
filtered short-distance pair list is nonempty), the graph has a mutual
edge, so the merged list — one periodic centroid per connected component —
is strictly shorter than the current list; consequently the source's
`while True` loop needs fewer than `len(coor) + 1` iterations, i.e. the
fueled embedding is independent of any fuel above `coor.length`. -/
theorem merge_coordinate_terminates (dist : Vec3 → ℚ)
    (center : List Vec3 → Vec3) (checkW : List Vec3 → Option ℕ)
    (wyckoff : OrganizedW) (tol : ℚ) (coor : List Vec3) :
    (∀ c : List Vec3, (find_short_dist c dist tol).1 ≠ [] →
      (merged_of c dist center tol).length < c.length) ∧
    (∀ fuel, coor.length < fuel →
      merge_coordinate dist center checkW wyckoff tol fuel coor =
      merge_coordinate dist center checkW wyckoff tol (coor.length + 1) coor) :=
  ⟨fun _ h => merged_of_length_lt h,
   fun fuel hf => merge_coordinate_fuel dist center checkW wyckoff tol
     coor.length coor fuel (coor.length + 1) le_rfl hf (Nat.lt_succ_self _)⟩

/-- Witness for C6 at a concrete three-point orbit with two coincident
points, a concrete distance oracle and a two-operation Wyckoff position. -/
theorem merge_coordinate_terminates_witness :
    ((find_short_dist [((0:ℚ),(0:ℚ),(0:ℚ)), (0,0,0), (7,0,0)]
        (fun v => if v = (0,0,0) then 0 else 5) 1).1 ≠ [] ∧
      (merged_of [((0:ℚ),(0:ℚ),(0:ℚ)), (0,0,0), (7,0,0)]
        (fun v => if v = (0,0,0) then 0 else 5)
        (fun l => l.headD (0,0,0)) 1).length <
        ([((0:ℚ),(0:ℚ),(0:ℚ)), (0,0,0), (7,0,0)] : List Vec3).length) ∧
    merge_coordinate (fun v => if v = (0,0,0) then 0 else 5)
      (fun l => l.headD (0,0,0)) (fun _ => some 0) [[[idOp, idOp]]] 1
      10 [((0:ℚ),(0:ℚ),(0:ℚ)), (0,0,0), (7,0,0)] =
    merge_coordinate (fun v => if v = (0,0,0) then 0 else 5)
      (fun l => l.headD (0,0,0)) (fun _ => some 0) [[[idOp, idOp]]] 1
      4 [((0:ℚ),(0:ℚ),(0:ℚ)), (0,0,0), (7,0,0)] :=
  by
  have hfs : (find_short_dist [((0:ℚ),(0:ℚ),(0:ℚ)), (0,0,0), (7,0,0)]
      (fun v => if v = (0,0,0) then 0 else 5) 1).1 = [(0, 1, 0)] := by
    with_unfolding_all rfl
  refine ⟨⟨by rw [hfs]; simp, ?_⟩, ?_⟩
  · exact (merge_coordinate_terminates (fun v => if v = (0,0,0) then 0 else 5)
      (fun l => l.headD (0,0,0)) (fun _ => some 0) [[[idOp, idOp]]] 1
      [((0:ℚ),(0:ℚ),(0:ℚ)), (0,0,0), (7,0,0)]).1 _ (by rw [hfs]; simp)
  · exact (merge_coordinate_terminates (fun v => if v = (0,0,0) then 0 else 5)
      (fun l => l.headD (0,0,0)) (fun _ => some 0) [[[idOp, idOp]]] 1
      [((0:ℚ),(0:ℚ),(0:ℚ)), (0,0,0), (7,0,0)]).2 10 (by decide)

/-! ## C5: failure condition of `merge_coordinate` -/

/-- The failure condition asserted by the (amended) specification of
`merge_coordinate`, mirrored along the merging loop: at some iteration with
short pairs present, either the orbit cannot be merged further because its
point count does not exceed the *smallest* Wyckoff multiplicity of the
group (`len(wyckoff[-1][0])`), or the merged candidate is not recognized as
a Wyckoff position. -/
def merge_fail_spec (dist : Vec3 → ℚ) (center : List Vec3 → Vec3)
    (checkW : List Vec3 → Option ℕ) (wyckoff : OrganizedW) (tol : ℚ) :
    ℕ → List Vec3 → Bool
  | 0, _ => true
  | fuel + 1, coor =>
    if (find_short_dist coor dist tol).1.length > 0 then
      if coor.length ≤ ((wyckoff.getLastD []).headD []).length then true
      else
        match checkW (merged_of coor dist center tol) with
        | none => true
        | some _ => merge_fail_spec dist center checkW wyckoff tol fuel
            (merged_of coor dist center tol)
    else false

theorem merge_failure_iff_aux (dist : Vec3 → ℚ) (center : List Vec3 → Vec3)
    (checkW : List Vec3 → Option ℕ) (wyckoff : OrganizedW) (tol : ℚ) :
    ∀ (fuel : ℕ) (coor : List Vec3), (find_short_dist coor dist tol).1 ≠ [] →
    ((merge_coordinate dist center checkW wyckoff tol fuel coor).2 = none ↔
      merge_fail_spec dist center checkW wyckoff tol fuel coor = true) := by
  intro fuel
  induction fuel with
  | zero =>
    intro coor _
    simp [merge_coordinate, merge_fail_spec]
  | succ fuel ih =>
    intro coor h
    have hpos : (find_short_dist coor dist tol).1.length > 0 :=
      List.length_pos.mpr h
    simp only [merge_coordinate, merge_fail_spec]
    rw [if_pos hpos, if_pos hpos]
    by_cases hsz : ((wyckoff.getLastD []).headD []).length < coor.length
    · rw [if_pos hsz, if_neg (by omega)]
      cases hcw : checkW (merged_of coor dist center tol) with
      | none => simp
      | some idx =>
        by_cases hm : (find_short_dist (merged_of coor dist center tol)
            dist tol).1 = []
        · cases fuel with
          | zero => simp [merge_coordinate, merge_fail_spec]
          | succ fuel' =>
            have hnp : ¬ ((find_short_dist (merged_of coor dist center tol)
                dist tol).1.length > 0) := by
              rw [hm]; simp
            simp only [merge_coordinate, merge_fail_spec]
            rw [if_neg hnp, if_neg hnp, hcw]
            simp
        · exact ih _ hm
    · rw [if_neg hsz, if_pos (by omega)]
      simp

/-- C5 (amended): when `merge_coordinate` is given an orbit containing at
least one pair of points whose (minimum-image) distance is at most the
merge tolerance, it returns failure (the coordinates together with `False`)
exactly when, at some iteration of the merging loop, either the merged
candidate is not recognized as a Wyckoff position of the space group, or
the orbit cannot be merged further because its number of points does not
exceed the *smallest* Wyckoff multiplicity of the group
(`len(wyckoff[-1][0])` for the organized list) — not the general position's
multiplicity, as the unamended claim states. -/
theorem merge_coordinate_failure_iff (dist : Vec3 → ℚ)
    (center : List Vec3 → Vec3) (checkW : List Vec3 → Option ℕ)
    (wyckoff : OrganizedW) (tol : ℚ) (fuel : ℕ) (coor : List Vec3)
    (hshort : ∃ i j, i < j ∧ j < coor.length ∧
      dist (sub3 (coor.getD i (0,0,0)) (coor.getD j (0,0,0))) ≤ tol) :
    ((merge_coordinate dist center checkW wyckoff tol fuel coor).2 = none ↔
      merge_fail_spec dist center checkW wyckoff tol fuel coor = true) := by
  obtain ⟨i, j, hij, hj, hd⟩ := hshort
  exact merge_failure_iff_aux dist center checkW wyckoff tol fuel coor
    (find_short_dist_fst_ne_nil
      (List.ne_nil_of_mem (short_pairs_of_close hij hj hd)))

/-- Witness for C5 (amended) on a two-point orbit of coincident points with
smallest Wyckoff multiplicity 2: merging fails (no way to merge), and the
fail condition holds. -/
theorem merge_coordinate_failure_iff_witness :
    ((merge_coordinate (fun v => if v = (0,0,0) then 0 else 5)
        (fun l => l.headD (0,0,0)) (fun _ => some 0) [[[idOp, idOp]]] 1
        5 [((0:ℚ),(0:ℚ),(0:ℚ)), (0,0,0)]).2 = none ↔
      merge_fail_spec (fun v => if v = (0,0,0) then 0 else 5)
        (fun l => l.headD (0,0,0)) (fun _ => some 0) [[[idOp, idOp]]] 1
        5 [((0:ℚ),(0:ℚ),(0:ℚ)), (0,0,0)] = true) :=
  merge_coordinate_failure_iff (fun v => if v = (0,0,0) then 0 else 5)
    (fun l => l.headD (0,0,0)) (fun _ => some 0) [[[idOp, idOp]]] 1
    5 [((0:ℚ),(0:ℚ),(0:ℚ)), (0,0,0)]
    ⟨0, 1, by decide, by decide, of_decide_eq_true (by with_unfolding_all rfl)⟩

/-- C5 counterexample to the unamended claim: a four-point orbit with one
coincident pair, in a group whose general position has multiplicity 4 and
whose smallest position has multiplicity 2, with every candidate recognized
(`check_wyckoff_position` returns an index).  The claim as stated predicts
failure (the orbit's point count equals the general position's
multiplicity, so "it cannot be merged further"); the code merges it and
returns success. -/
theorem merge_coordinate_claim_counterexample :
    (∃ i j, i < j ∧ j < ([((0:ℚ),(0:ℚ),(0:ℚ)), (0,0,0), (5,0,0), (9,0,0)] : List Vec3).length ∧
      (fun v => if v = ((0:ℚ),(0:ℚ),(0:ℚ)) then (0:ℚ) else 5)
        (sub3 (([((0:ℚ),(0:ℚ),(0:ℚ)), (0,0,0), (5,0,0), (9,0,0)] : List Vec3).getD i (0,0,0))
          (([((0:ℚ),(0:ℚ),(0:ℚ)), (0,0,0), (5,0,0), (9,0,0)] : List Vec3).getD j (0,0,0))) ≤ 1) ∧
    ([((0:ℚ),(0:ℚ),(0:ℚ)), (0,0,0), (5,0,0), (9,0,0)] : List Vec3).length =
      ((([[[idOp, idOp, idOp, idOp]], [[idOp, idOp]]] : OrganizedW).headD []).headD []).length ∧
    (merge_coordinate (fun v => if v = (0,0,0) then 0 else 5)
      (fun l => l.headD (0,0,0)) (fun _ => some 0)
      [[[idOp, idOp, idOp, idOp]], [[idOp, idOp]]] 1
      5 [((0:ℚ),(0:ℚ),(0:ℚ)), (0,0,0), (5,0,0), (9,0,0)]).2 ≠ none := by
  refine ⟨⟨0, 1, by decide, by decide,
    of_decide_eq_true (by with_unfolding_all rfl)⟩, by decide, ?_⟩
  have hval : (merge_coordinate (fun v => if v = (0,0,0) then 0 else 5)
      (fun l => l.headD (0,0,0)) (fun _ => some 0)
      [[[idOp, idOp, idOp, idOp]], [[idOp, idOp]]] 1
      5 [((0:ℚ),(0:ℚ),(0:ℚ)), (0,0,0), (5,0,0), (9,0,0)]).2 = some 0 := by
    with_unfolding_all rfl
  rw [hval]
  simp

/-! ## C3: incompatible counts -/

theorem check_compatible_go_incompatible (wyckoffs : OrganizedW) (nLast : ℕ)
    (opLast : SymmOpQ) :
    ∀ (l : List ℕ) (st : List WyckoffPos × Bool),
    (∃ n ∈ l, n % nLast > 0) →
    check_compatible_go wyckoffs nLast opLast l st = .incompatible := by
  intro l
  induction l with
  | nil =>
    intro st h
    obtain ⟨n, hn, _⟩ := h
    simp at hn
  | cons m rest ih =>
    intro st h
    obtain ⟨st1, st2⟩ := st
    simp only [check_compatible_go]
    by_cases hm : m % nLast > 0
    · rw [if_pos hm]
    · rw [if_neg hm]
      obtain ⟨n, hn, hpos⟩ := h
      have hrest : ∃ n ∈ rest, n % nLast > 0 := by
        rcases List.mem_cons.mp hn with rfl | hmem
        · exact absurd hpos hm
        · exact ⟨n, hmem, hpos⟩
      by_cases hall : allEntriesNonzero opLast = true
      · rw [if_pos hall]
        exact ih _ hrest
      · rw [if_neg hall]
        by_cases hr : (compat_fold wyckoffs.flatten (m, st1, st2)).1 ≠ 0
        · rw [if_pos hr]
        · rw [if_neg hr]
          exact ih _ hrest

/-- C3: if some scaled count `numIons0[i] * cellsize(sg)` is not divisible
by the smallest Wyckoff multiplicity of the group (which, for the organized
list, is the multiplicity `N_site[-1]` of the last group — hypothesis
`hmin`), then `check_compatible` returns `False`, and `generate_crystal`
reports the incompatibility once (`Msg1`), sets `struct` to `None` and
`valid` to `False` — the `.incompatible` result — and performs no lattice
sampling or atom placement: the result is `.incompatible` for *every*
choice of species, radii and random/geometry oracles. -/
theorem check_compatible_incompatible_counts (wyckoffs : OrganizedW)
    (numIons0 : List ℕ) (letter : Char)
    (hmin : ∀ wp ∈ wyckoffs.flatten,
      ((wyckoffs.getLastD []).headD []).length ≤ wp.length)
    (hbad : ∃ n ∈ numIons0.map (· * cellsize letter),
      ¬ ((wyckoffs.getLastD []).headD []).length ∣ n) :
    check_compatible wyckoffs (numIons0.map (· * cellsize letter)) =
      .incompatible ∧
    ∀ (Λ : Type) (species : List ℕ) (radius : ℕ → ℚ) (O : GenOracle Λ),
      generate_crystal ⟨wyckoffs, species, numIons0.map (· * cellsize letter),
        radius⟩ O = .incompatible := by
  have hbad' : ∃ n ∈ numIons0.map (· * cellsize letter),
      n % ((wyckoffs.getLastD []).headD []).length > 0 := by
    obtain ⟨n, hn, hdvd⟩ := hbad
    refine ⟨n, hn, ?_⟩
    rcases Nat.eq_zero_or_pos (n % ((wyckoffs.getLastD []).headD []).length)
      with h0 | h0
    · exact absurd (Nat.dvd_of_mod_eq_zero h0) hdvd
    · exact h0
  have hcc : check_compatible wyckoffs (numIons0.map (· * cellsize letter)) =
      .incompatible := by
    unfold check_compatible
    exact check_compatible_go_incompatible wyckoffs _ _ _ _ hbad'
  refine ⟨hcc, ?_⟩
  intro Λ species radius O
  unfold generate_crystal
  rw [hcc]

/-- Witness for C3: one species with one scaled ion in a group whose only
(and hence smallest) Wyckoff position has multiplicity 2. -/
theorem check_compatible_incompatible_counts_witness :
    check_compatible [[[idOp, idOp]]] ([1].map (· * cellsize 'P')) =
      .incompatible ∧
    generate_crystal ⟨[[[idOp, idOp]]], [0], [1].map (· * cellsize 'P'),
        fun _ => 1⟩
      (⟨fun _ => none, fun _ => false, fun _ _ => 0, fun _ _ => (0,0,0),
        fun _ _ _ => 0, fun _ => none, fun _ _ _ _ => true,
        fun _ _ _ _ => 0, fun _ _ _ _ => (0,0,0)⟩ : GenOracle Unit) =
      .incompatible :=
  ⟨(check_compatible_incompatible_counts [[[idOp, idOp]]] [1] 'P' (by decide)
      ⟨1, by decide, by decide⟩).1,
   (check_compatible_incompatible_counts [[[idOp, idOp]]] [1] 'P' (by decide)
      ⟨1, by decide, by decide⟩).2 Unit [0] (fun _ => 1) _⟩

/-! ## Counting invariants of `generate_crystal` (C1, C9) -/

/-- Number of atoms with species tag `s` in the accumulators. -/
def count_tag (s : ℕ) (orbits : List (List Vec3)) (sites : List ℕ) : ℕ :=
  ((orbits.zip sites).map fun p => if p.2 = s then p.1.length else 0).sum

/-- Total number of atoms in the accumulator. -/
def sum_len (orbits : List (List Vec3)) : ℕ := (orbits.map List.length).sum

/-- Requested atoms of species `s` in a `zip(numIons, species)` list. -/
def sum_tag (s : ℕ) (l : List (ℕ × ℕ)) : ℕ :=
  (l.map fun p => if p.2 = s then p.1 else 0).sum

theorem count_tag_append (s : ℕ) (orbits : List (List Vec3)) (sites : List ℕ)
    (w : List Vec3) (t : ℕ) (hlen : orbits.length = sites.length) :
    count_tag s (orbits ++ [w]) (sites ++ [t]) =
      count_tag s orbits sites + (if t = s then w.length else 0) := by
  unfold count_tag
  rw [List.zip_append hlen]
  simp

theorem sum_len_append (orbits : List (List Vec3)) (w : List Vec3) :
    sum_len (orbits ++ [w]) = sum_len orbits + w.length := by
  unfold sum_len
  simp

theorem inUnit_wrap3 (v : Vec3) : inUnit (wrap3 v) :=
  ⟨Int.fract_nonneg v.1, Int.fract_lt_one v.1,
   Int.fract_nonneg v.2.1, Int.fract_lt_one v.2.1,
   Int.fract_nonneg v.2.2, Int.fract_lt_one v.2.2⟩

/-- Invariants of the inner (`cycle3`) loop: the accumulators stay aligned,
`numIon_added` only grows and exactly tracks the atoms tagged with the
current species, the loop `break`s exactly at `numIon_added == numIon`, a
completed-but-unbroken loop added nothing, and wrapped coordinates are
preserved (every appended orbit is wrapped before the distance check). -/
theorem cycle3_loop_spec {Λ : Type} (env : GenEnv) (O : GenOracle Λ) (lat : Λ)
    (c1 c2 si : ℕ) (numIon : ℕ) (specie : ℕ) (tol : ℚ) :
    ∀ (fuel c3 added : ℕ) (tmp : List (List Vec3)) (sites : List ℕ)
      (res : (ℕ × List (List Vec3) × List ℕ) × Bool),
    cycle3_loop env O lat c1 c2 si numIon specie tol fuel c3 added tmp sites = res →
    tmp.length = sites.length →
    res.1.2.1.length = res.1.2.2.length ∧
    added ≤ res.1.1 ∧
    (∀ s, count_tag s res.1.2.1 res.1.2.2 =
      count_tag s tmp sites + (if specie = s then res.1.1 - added else 0)) ∧
    sum_len res.1.2.1 = sum_len tmp + (res.1.1 - added) ∧
    (res.2 = true → res.1.1 = numIon) ∧
    (res.2 = false → res.1.1 = numIon →
      res.1.1 = added ∧ res.1.2.1 = tmp ∧ res.1.2.2 = sites) ∧
    ((∀ o ∈ tmp, ∀ v ∈ o, inUnit v) → ∀ o ∈ res.1.2.1, ∀ v ∈ o, inUnit v) := by
  intro fuel
  induction fuel with
  | zero =>
    intro c3 added tmp sites res hres hlen
    simp only [cycle3_loop] at hres
    subst hres
    refine ⟨hlen, le_rfl, ?_, ?_, ?_, ?_, ?_⟩
    · intro s; simp
    · simp [Nat.sub_self]
    · intro h; exact absurd h (by simp)
    · intro _ _; exact ⟨rfl, rfl, rfl⟩
    · intro h; exact h
  | succ fuel ih =>
    intro c3 added tmp sites res hres hlen
    simp only [cycle3_loop] at hres
    split at hres
    next hcw =>
      exact ih (c3 + 1) added tmp sites res hres hlen
    next ops hcw =>
      split at hres
      next hm =>
        exact ih (c3 + 1) added tmp sites res hres hlen
      next idx hm =>
        set w := (merge_coordinate (O.dist lat) (O.center lat) O.checkW
          env.wyckoffs tol
          ((ops.map fun op => op.operate (O.point c1 c2 si c3)).length + 1)
          (ops.map fun op => op.operate (O.point c1 c2 si c3))).1.map wrap3
          with hwdef
        by_cases hcd : check_distance tmp w sites specie (O.dmin lat)
            env.radius 0 1 = true
        · rw [if_pos hcd] at hres
          by_cases hbrk : added + w.length = numIon
          · rw [if_pos hbrk] at hres
            subst hres
            refine ⟨by simp [hlen], by simp, ?_, ?_, ?_, ?_, ?_⟩
            · intro s
              rw [count_tag_append s tmp sites w specie hlen]
              rcases eq_or_ne specie s with rfl | hs
              · simp
              · simp [hs]
            · dsimp only
              rw [sum_len_append]
              omega
            · intro _; exact hbrk
            · intro hfalse; exact absurd hfalse (by simp)
            · intro hin o ho v hv
              rcases List.mem_append.mp ho with h1 | h1
              · exact hin o h1 v hv
              · have : o = w := by simpa using h1
                subst this
                obtain ⟨v0, _, rfl⟩ := List.mem_map.mp hv
                exact inUnit_wrap3 v0
          · rw [if_neg hbrk] at hres
            have hrec := ih (c3 + 1) (added + w.length) (tmp ++ [w])
              (sites ++ [specie]) res hres (by simp [hlen])
            obtain ⟨r1, r2, r3, r4, r5, r6, r7⟩ := hrec
            refine ⟨r1, by omega, ?_, ?_, r5, ?_, ?_⟩
            · intro s
              rw [r3 s, count_tag_append s tmp sites w specie hlen]
              rcases eq_or_ne specie s with rfl | hs
              · simp only [eq_self_iff_true, if_true]
                omega
              · simp [hs]
            · rw [r4, sum_len_append]
              omega
            · intro hfalse hnum
              obtain ⟨hq1, _, _⟩ := r6 hfalse hnum
              omega
            · intro hin
              refine r7 ?_
              intro o ho v hv
              rcases List.mem_append.mp ho with h1 | h1
              · exact hin o h1 v hv
              · have : o = w := by simpa using h1
                subst this
                obtain ⟨v0, _, rfl⟩ := List.mem_map.mp hv
                exact inUnit_wrap3 v0
        · rw [if_neg hcd] at hres
          by_cases hbrk : added = numIon
          · rw [if_pos hbrk] at hres
            subst hres
            refine ⟨hlen, le_rfl, ?_, ?_, ?_, ?_, ?_⟩
            · intro s; simp
            · simp [Nat.sub_self]
            · intro _; exact hbrk
            · intro hfalse; exact absurd hfalse (by simp)
            · intro h; exact h
          · rw [if_neg hbrk] at hres
            exact ih (c3 + 1) added tmp sites res hres hlen

/-- Invariants of the species loop: starting the `_tmp` accumulators from
the `_total` accumulators (as each middle cycle does), a fully successful
pass returns totals that extend the initial state by exactly the requested
count of every processed species. -/
theorem add_species_spec {Λ : Type} (env : GenEnv) (O : GenOracle Λ) (lat : Λ)
    (c1 c2 m3 : ℕ) :
    ∀ (l : List (ℕ × ℕ)) (si : ℕ) (tmp : List (List Vec3)) (sites : List ℕ)
      (totC' : List (List Vec3)) (totS' : List ℕ),
    add_species env O lat c1 c2 m3 si l tmp sites tmp sites =
      (true, totC', totS') →
    tmp.length = sites.length →
    totC'.length = totS'.length ∧
    (∀ s, count_tag s totC' totS' = count_tag s tmp sites + sum_tag s l) ∧
    sum_len totC' = sum_len tmp + (l.map Prod.fst).sum ∧
    ((∀ o ∈ tmp, ∀ v ∈ o, inUnit v) → ∀ o ∈ totC', ∀ v ∈ o, inUnit v) := by
  intro l
  induction l with
  | nil =>
    intro si tmp sites totC' totS' hres hlen
    simp only [add_species] at hres
    obtain ⟨rfl, rfl⟩ : tmp = totC' ∧ sites = totS' := by
      cases hres
      exact ⟨rfl, rfl⟩
    refine ⟨hlen, ?_, ?_, fun h => h⟩
    · intro s; simp [sum_tag]
    · simp
  | cons hd rest ih =>
    obtain ⟨numIon, specie⟩ := hd
    intro si tmp sites totC' totS' hres hlen
    simp only [add_species] at hres
    have hspec := cycle3_loop_spec env O lat c1 c2 si numIon specie
      (max ((1/2 : ℚ) * env.radius specie) 1) m3 0 0 tmp sites
      (cycle3_loop env O lat c1 c2 si numIon specie
        (max ((1/2 : ℚ) * env.radius specie) 1) m3 0 0 tmp sites) rfl hlen
    obtain ⟨r1, _, r3, r4, r5, r6, r7⟩ := hspec
    set r := cycle3_loop env O lat c1 c2 si numIon specie
      (max ((1/2 : ℚ) * env.radius specie) 1) m3 0 0 tmp sites with hrdef
    by_cases hnum : r.1.1 = numIon
    · rw [if_pos hnum] at hres
      have htot : (if r.2 = true then r.1.2.1 else tmp) = r.1.2.1 ∧
          (if r.2 = true then r.1.2.2 else sites) = r.1.2.2 := by
        cases hb : r.2 with
        | true => simp
        | false =>
          obtain ⟨_, ht1, ht2⟩ := r6 hb hnum
          simp [ht1, ht2]
      rw [htot.1, htot.2] at hres
      have hrec := ih (si + 1) r.1.2.1 r.1.2.2 totC' totS' hres r1
      obtain ⟨q1, q2, q3, q4⟩ := hrec
      refine ⟨q1, ?_, ?_, ?_⟩
      · intro s
        rw [q2 s, r3 s]
        simp only [sum_tag, List.map_cons, List.sum_cons]
        rcases eq_or_ne specie s with rfl | hs
        · simp only [eq_self_iff_true, if_true]
          omega
        · simp only [if_neg hs]
          omega
      · rw [q3, r4]
        simp only [List.map_cons, List.sum_cons]
        omega
      · intro hin
        exact q4 (r7 hin)
    · rw [if_neg hnum] at hres
      exact absurd (congrArg Prod.fst hres) (by simp)

/-- The middle (`cycle2`) loop starts from empty accumulators on every
iteration; a success carries exactly the requested per-species counts,
with all coordinates wrapped. -/
theorem cycle2_loop_spec {Λ : Type} (env : GenEnv) (O : GenOracle Λ) (lat : Λ)
    (c1 m3 : ℕ) :
    ∀ (fuel c2 : ℕ) (r : List (List Vec3) × List ℕ),
    cycle2_loop env O lat c1 m3 fuel c2 [] [] = some r →
    r.1.length = r.2.length ∧
    (∀ s, count_tag s r.1 r.2 = sum_tag s (env.numIons.zip env.species)) ∧
    sum_len r.1 = ((env.numIons.zip env.species).map Prod.fst).sum ∧
    (∀ o ∈ r.1, ∀ v ∈ o, inUnit v) := by
  intro fuel
  induction fuel with
  | zero =>
    intro c2 r hres
    exact Option.noConfusion hres
  | succ fuel ih =>
    intro c2 r hres
    simp only [cycle2_loop] at hres
    by_cases hok : (add_species env O lat c1 c2 m3 0
        (env.numIons.zip env.species) [] [] [] []).1 = true
    · rw [if_pos hok] at hres
      have heq : add_species env O lat c1 c2 m3 0
          (env.numIons.zip env.species) [] [] [] [] =
          (true, (add_species env O lat c1 c2 m3 0
            (env.numIons.zip env.species) [] [] [] []).2.1,
           (add_species env O lat c1 c2 m3 0
            (env.numIons.zip env.species) [] [] [] []).2.2) := by
        rw [← hok]
      have hspec := add_species_spec env O lat c1 c2 m3
        (env.numIons.zip env.species) 0 [] [] _ _ heq rfl
      obtain ⟨q1, q2, q3, q4⟩ := hspec
      have hr : r = ((add_species env O lat c1 c2 m3 0
          (env.numIons.zip env.species) [] [] [] []).2.1,
        (add_species env O lat c1 c2 m3 0
          (env.numIons.zip env.species) [] [] [] []).2.2) := by
        cases hres
        rfl
      subst hr
      refine ⟨q1, ?_, ?_, ?_⟩
      · intro s
        rw [q2 s]
        simp [count_tag]
      · rw [q3]
        simp [sum_len]
      · exact q4 (by intro o ho; simp at ho)
    · rw [if_neg hok] at hres
      exact ih (c2 + 1) r hres

/-- A successful outer loop run produces the flattened accumulators of a
successful middle loop. -/
theorem cycle1_loop_ok {Λ : Type} (env : GenEnv) (O : GenOracle Λ)
    (m2 m3 : ℕ) :
    ∀ (fuel c1 : ℕ) (coords : List Vec3) (sites : List ℕ),
    cycle1_loop env O m2 m3 fuel c1 = .ok coords sites →
    ∃ (lat : Λ) (c1' : ℕ) (r : List (List Vec3) × List ℕ),
      cycle2_loop env O lat c1' m3 m2 0 [] [] = some r ∧
      coords = r.1.flatten ∧ sites = flatten_sites r.1 r.2 := by
  intro fuel
  induction fuel with
  | zero =>
    intro c1 coords sites hres
    exact GenResult.noConfusion hres
  | succ fuel ih =>
    intro c1 coords sites hres
    simp only [cycle1_loop] at hres
    split at hres
    next =>
      exact GenResult.noConfusion hres
    next lat hlat =>
      by_cases hvm : O.volMismatch lat = true
      · rw [if_pos hvm] at hres
        exact GenResult.noConfusion hres
      · rw [if_neg hvm] at hres
        split at hres
        next r hc2 =>
          refine ⟨lat, c1, r, hc2, ?_, ?_⟩
          · cases hres; rfl
          · cases hres; rfl
        next hc2 =>
          exact ih (c1 + 1) coords sites hres

/-- A successful `generate_crystal` run comes from a successful middle
loop. -/
theorem generate_crystal_ok {Λ : Type} (env : GenEnv) (O : GenOracle Λ)
    (coords : List Vec3) (sites : List ℕ)
    (hres : generate_crystal env O = .ok coords sites) :
    ∃ (lat : Λ) (c1' m2 m3 : ℕ) (r : List (List Vec3) × List ℕ),
      cycle2_loop env O lat c1' m3 m2 0 [] [] = some r ∧
      coords = r.1.flatten ∧ sites = flatten_sites r.1 r.2 := by
  unfold generate_crystal at hres
  cases hcc : check_compatible env.wyckoffs env.numIons with
  | incompatible =>
    rw [hcc] at hres
    exact GenResult.noConfusion hres
  | zerodof =>
    rw [hcc] at hres
    obtain ⟨lat, c1', r, h1, h2, h3⟩ := cycle1_loop_ok env O 5 5 5 0 coords sites hres
    exact ⟨lat, c1', 5, 5, r, h1, h2, h3⟩
  | ok =>
    rw [hcc] at hres
    obtain ⟨lat, c1', r, h1, h2, h3⟩ := cycle1_loop_ok env O 30 30 30 0 coords sites hres
    exact ⟨lat, c1', 30, 30, r, h1, h2, h3⟩

theorem count_flatten_sites (s : ℕ) :
    ∀ (orbits : List (List Vec3)) (sites : List ℕ),
    (flatten_sites orbits sites).count s = count_tag s orbits sites := by
  intro orbits
  induction orbits with
  | nil => intro sites; simp [flatten_sites, count_tag]
  | cons o os ih =>
    intro sites
    cases sites with
    | nil => simp [flatten_sites, count_tag]
    | cons t ts =>
      simp only [flatten_sites, count_tag, List.zip_cons_cons, List.map_cons,
        List.flatten_cons, List.sum_cons, List.count_append]
      rw [List.count_replicate]
      have ihx := ih ts
      simp only [flatten_sites, count_tag] at ihx
      rw [ihx]
      by_cases hts : t = s
      · subst hts; simp
      · rw [if_neg hts, if_neg (by intro h; exact hts (beq_iff_eq.mp h))]

theorem flatten_sites_length :
    ∀ (orbits : List (List Vec3)) (sites : List ℕ),
    orbits.length = sites.length →
    (flatten_sites orbits sites).length = sum_len orbits := by
  intro orbits
  induction orbits with
  | nil => intro sites _; simp [flatten_sites, sum_len]
  | cons o os ih =>
    intro sites hlen
    cases sites with
    | nil => simp at hlen
    | cons t ts =>
      simp only [flatten_sites, List.zip_cons_cons, List.map_cons,
        List.flatten_cons, List.length_append, List.length_replicate]
      have ihx := ih ts (by simpa using hlen)
      simp only [flatten_sites] at ihx
      rw [ihx]
      simp [sum_len]

theorem sum_tag_eq_zero {s : ℕ} :
    ∀ {l : List (ℕ × ℕ)}, s ∉ l.map Prod.snd → sum_tag s l = 0 := by
  intro l
  induction l with
  | nil => intro _; rfl
  | cons p rest ih =>
    intro h
    simp only [List.map_cons, List.mem_cons] at h
    push_neg at h
    simp only [sum_tag, List.map_cons, List.sum_cons]
    rw [if_neg (by intro hh; exact h.1 hh.symm)]
    have := ih h.2
    simp only [sum_tag] at this
    omega

theorem sum_tag_cons (s n t : ℕ) (l : List (ℕ × ℕ)) :
    sum_tag s ((n, t) :: l) = (if t = s then n else 0) + sum_tag s l := rfl

theorem sum_tag_get :
    ∀ (ns ss : List ℕ), ss.Nodup → ns.length = ss.length →
    ∀ (i : ℕ) (hi : i < ss.length) (hi' : i < ns.length),
    sum_tag (ss.get ⟨i, hi⟩) (ns.zip ss) = ns.get ⟨i, hi'⟩ := by
  intro ns
  induction ns with
  | nil => intro ss _ _ i hi hi'; simp at hi'
  | cons n ns' ih =>
    intro ss hnd hlen i hi hi'
    cases ss with
    | nil => simp at hlen
    | cons t ts =>
      cases i with
      | zero =>
        have hnotin : t ∉ (ns'.zip ts).map Prod.snd := by
          intro hmem
          have : t ∈ ts := by
            obtain ⟨p, hp, hp2⟩ := List.mem_map.mp hmem
            exact hp2 ▸ List.of_mem_zip hp |>.2
          exact (List.nodup_cons.mp hnd).1 this
        have hz := sum_tag_eq_zero hnotin
        show sum_tag t ((n, t) :: ns'.zip ts) = n
        rw [sum_tag_cons, hz, if_pos rfl]
        omega
      | succ i =>
        have hi2 : i < ts.length := by simpa using hi
        have hi2' : i < ns'.length := by simpa using hi'
        have hne : t ≠ ts.get ⟨i, hi2⟩ := fun h =>
          (List.nodup_cons.mp hnd).1 (h ▸ List.get_mem ts i hi2)
        have ihx := ih ts (List.nodup_cons.mp hnd).2 (by simpa using hlen) i
          hi2 hi2'
        show sum_tag (ts.get ⟨i, hi2⟩) ((n, t) :: ns'.zip ts) = ns'.get ⟨i, hi2'⟩
        rw [sum_tag_cons, if_neg hne, ihx, Nat.zero_add]

/-- C1: for every successful generation (`generate_crystal` sets
`valid = True`), the produced coordinate list contains exactly
`numIons0[i] * cellsize(sg)` atoms of species `i` for every species `i`
(species pairwise distinct, lists aligned), and hence exactly
`Σᵢ numIons0[i] * cellsize(sg)` atoms in total, where `cellsize` maps the
space group symbol's centering letter P to 1, A/C/I to 2, R to 3 and F
to 4. -/
theorem generate_crystal_counts {Λ : Type} (O : GenOracle Λ)
    (wyckoffs : OrganizedW) (radius : ℕ → ℚ) (species : List ℕ)
    (numIons0 : List ℕ) (letter : Char) (coords : List Vec3) (sites : List ℕ)
    (hnd : species.Nodup) (hlen : numIons0.length = species.length)
    (hok : generate_crystal ⟨wyckoffs, species,
      numIons0.map (· * cellsize letter), radius⟩ O = .ok coords sites) :
    (∀ (i : ℕ) (hi : i < species.length) (hi' : i < numIons0.length),
      sites.count (species.get ⟨i, hi⟩) =
        numIons0.get ⟨i, hi'⟩ * cellsize letter) ∧
    coords.length = (numIons0.map (· * cellsize letter)).sum ∧
    sites.length = coords.length := by
  obtain ⟨lat, c1', m2, m3, r, hc2, hco, hsi⟩ :=
    generate_crystal_ok _ O coords sites hok
  obtain ⟨q1, q2, q3, _⟩ := cycle2_loop_spec _ O lat c1' m3 m2 0 r hc2
  have hmaplen : (numIons0.map (· * cellsize letter)).length = species.length := by
    simpa using hlen
  constructor
  · intro i hi hi'
    rw [hsi, count_flatten_sites, q2]
    have := sum_tag_get (numIons0.map (· * cellsize letter)) species hnd
      hmaplen i hi (by simpa using hi')
    rw [this]
    simp
  · constructor
    · rw [hco, List.length_flatten]
      have h3 : sum_len r.1 =
          (((numIons0.map (· * cellsize letter)).zip species).map
            Prod.fst).sum := q3
      rw [List.map_fst_zip _ _ (le_of_eq hmaplen)] at h3
      simpa [sum_len] using h3
    · rw [hsi, hco, List.length_flatten, flatten_sites_length r.1 r.2 q1]
      simp [sum_len]

/-- C9: for every successful generation, every component of every
fractional coordinate in the output structure lies in [0,1): each accepted
orbit is wrapped by subtracting the componentwise floor before being
appended to the accumulator, and the flattening step copies the
accumulated coordinates unchanged. -/
theorem generate_crystal_coords_unit {Λ : Type} (O : GenOracle Λ)
    (env : GenEnv) (coords : List Vec3) (sites : List ℕ)
    (hok : generate_crystal env O = .ok coords sites) :
    ∀ v ∈ coords, inUnit v := by
  obtain ⟨lat, c1', m2, m3, r, hc2, hco, _⟩ :=
    generate_crystal_ok env O coords sites hok
  obtain ⟨_, _, _, q4⟩ := cycle2_loop_spec env O lat c1' m3 m2 0 r hc2
  intro v hv
  rw [hco] at hv
  obtain ⟨o, ho, hvo⟩ := List.mem_flatten.mp hv
  exact q4 o ho v hvo

theorem generate_crystal_eval :
    generate_crystal ⟨[[[idOp]]], [0], [1].map (· * cellsize 'P'), fun _ => 1⟩
      trivOracle = .ok [((0 : ℚ), (0 : ℚ), (0 : ℚ))] [0] := by
  with_unfolding_all rfl

theorem generate_crystal_counts_witness :
    ([0] : List ℕ).count 0 = 1 * cellsize 'P' ∧
    ([((0 : ℚ), (0 : ℚ), (0 : ℚ))] : List Vec3).length =
      (([1] : List ℕ).map (· * cellsize 'P')).sum ∧
    ([0] : List ℕ).length =
      ([((0 : ℚ), (0 : ℚ), (0 : ℚ))] : List Vec3).length := by
  have h := generate_crystal_counts trivOracle [[[idOp]]] (fun _ => 1) [0] [1]
    'P' [((0 : ℚ), (0 : ℚ), (0 : ℚ))] [0] (by decide) (by decide)
    generate_crystal_eval
  exact ⟨h.1 0 (by decide) (by decide), h.2.1, h.2.2⟩

theorem generate_crystal_coords_unit_witness :
    inUnit ((0 : ℚ), (0 : ℚ), (0 : ℚ)) :=
  generate_crystal_coords_unit trivOracle
    ⟨[[[idOp]]], [0], [1].map (· * cellsize 'P'), fun _ => 1⟩
    [((0 : ℚ), (0 : ℚ), (0 : ℚ))] [0] generate_crystal_eval
    ((0 : ℚ), (0 : ℚ), (0 : ℚ)) (List.mem_singleton.mpr rfl)

theorem rpow_third_cube {y : ℝ} (hy : 0 ≤ y) : (y ^ ((1:ℝ)/3)) ^ (3:ℕ) = y := by
  rw [← Real.rpow_natCast (y ^ ((1:ℝ)/3)) 3, ← Real.rpow_mul hy]
  rw [show (1:ℝ)/3 * ((3:ℕ):ℝ) = 1 by push_cast; ring, Real.rpow_one]

theorem cbrt_cube (y : ℝ) : cbrt y ^ (3:ℕ) = y := by
  unfold cbrt
  by_cases hy : 0 ≤ y
  · rw [if_pos hy]; exact rpow_third_cube hy
  · rw [if_neg hy]
    have h2 : (0:ℝ) ≤ -y := by linarith
    have h3 := rpow_third_cube h2
    have hodd : Odd 3 := ⟨1, rfl⟩
    rw [hodd.neg_pow, h3]
    ring

theorem cbrt_pos {y : ℝ} (hy : 0 < y) : 0 < cbrt y := by
  unfold cbrt
  rw [if_pos hy.le]
  exact Real.rpow_pos_of_pos hy _

theorem cbrt_nonpos {y : ℝ} (hy : y ≤ 0) : cbrt y ≤ 0 := by
  unfold cbrt
  rcases lt_or_eq_of_le hy with hlt | heq
  · rw [if_neg (not_le.mpr hlt)]
    exact neg_nonpos.mpr (Real.rpow_nonneg (by linarith) _)
  · subst heq
    rw [if_pos le_rfl, Real.zero_rpow (by norm_num)]

theorem pos_of_cbrt_pos {y : ℝ} (h : 0 < cbrt y) : 0 < y := by
  by_contra hy
  push_neg at hy
  exact absurd h (not_lt.mpr (cbrt_nonpos hy))

theorem det_para2matrix (p : Cell6) :
    (para2matrix p).det =
      p.a * (p.b * Real.sin p.gamma) *
        Real.sqrt (p.c ^ 2 - (p.c * Real.cos p.beta) ^ 2 -
          (p.c * (Real.cos p.alpha - Real.cos p.beta * Real.cos p.gamma) /
            Real.sin p.gamma) ^ 2) := by
  simp [para2matrix, Matrix.det_fin_three]

theorem det_para2matrix_eval (p : Cell6) (hsin : 0 < Real.sin p.gamma)
    (hc : 0 ≤ p.c) :
    (para2matrix p).det = p.a * p.b * p.c *
      Real.sqrt (1 - Real.cos p.alpha ^ 2 - Real.cos p.beta ^ 2 -
        Real.cos p.gamma ^ 2 +
        2 * (Real.cos p.alpha * Real.cos p.beta * Real.cos p.gamma)) := by
  have hne : Real.sin p.gamma ≠ 0 := ne_of_gt hsin
  have hs2 : Real.sin p.gamma ^ 2 = 1 - Real.cos p.gamma ^ 2 := Real.sin_sq p.gamma
  have key : p.c ^ 2 - (p.c * Real.cos p.beta) ^ 2 -
      (p.c * (Real.cos p.alpha - Real.cos p.beta * Real.cos p.gamma) /
        Real.sin p.gamma) ^ 2 = (p.c / Real.sin p.gamma) ^ 2 *
        (1 - Real.cos p.alpha ^ 2 - Real.cos p.beta ^ 2 -
          Real.cos p.gamma ^ 2 +
          2 * (Real.cos p.alpha * Real.cos p.beta * Real.cos p.gamma)) := by
    field_simp
    linear_combination (p.c ^ 2 * (1 - Real.cos p.beta ^ 2)) * hs2
  rw [det_para2matrix, key]
  rw [Real.sqrt_mul (by positivity)]
  rw [Real.sqrt_sq (by positivity)]
  field_simp
  ring

theorem det_scaled_abc (e0 e1 e2 A α β γ : ℝ)
    (he0 : 0 < e0) (he1 : 0 < e1) (he2 : 0 < e2)
    (hsin : 0 < Real.sin γ) (hc : 0 ≤ e2 * cbrt A / cbrt (e0 * e1 * e2)) :
    (para2matrix ⟨e0 * cbrt A / cbrt (e0 * e1 * e2),
      e1 * cbrt A / cbrt (e0 * e1 * e2), e2 * cbrt A / cbrt (e0 * e1 * e2),
      α, β, γ⟩).det =
    A * Real.sqrt (1 - Real.cos α ^ 2 - Real.cos β ^ 2 - Real.cos γ ^ 2 +
      2 * (Real.cos α * Real.cos β * Real.cos γ)) := by
  rw [det_para2matrix_eval ⟨e0 * cbrt A / cbrt (e0 * e1 * e2),
      e1 * cbrt A / cbrt (e0 * e1 * e2), e2 * cbrt A / cbrt (e0 * e1 * e2),
      α, β, γ⟩ hsin hc]
  dsimp only
  have hxyz : 0 < e0 * e1 * e2 := by positivity
  have h3 : e0 * cbrt A / cbrt (e0 * e1 * e2) *
      (e1 * cbrt A / cbrt (e0 * e1 * e2)) *
      (e2 * cbrt A / cbrt (e0 * e1 * e2)) =
      (e0 * e1 * e2) * cbrt A ^ (3:ℕ) / cbrt (e0 * e1 * e2) ^ (3:ℕ) := by
    ring
  rw [h3, cbrt_cube, cbrt_cube, mul_div_cancel_left₀ _ (ne_of_gt hxyz)]

theorem det_sqrt_ac (e0 e1 e2 V α β γ : ℝ) (hV : 0 < V)
    (he0 : 0 < e0) (he1 : 0 < e1) (he2 : 0 < e2)
    (hsin : 0 < Real.sin γ) :
    (para2matrix ⟨Real.sqrt (V / (e2 / (e0 * e1) * cbrt V)),
      Real.sqrt (V / (e2 / (e0 * e1) * cbrt V)), e2 / (e0 * e1) * cbrt V,
      α, β, γ⟩).det =
    V * Real.sqrt (1 - Real.cos α ^ 2 - Real.cos β ^ 2 - Real.cos γ ^ 2 +
      2 * (Real.cos α * Real.cos β * Real.cos γ)) := by
  have hcb : 0 < cbrt V := cbrt_pos hV
  have hcpos : 0 < e2 / (e0 * e1) * cbrt V := by positivity
  rw [det_para2matrix_eval ⟨Real.sqrt (V / (e2 / (e0 * e1) * cbrt V)),
      Real.sqrt (V / (e2 / (e0 * e1) * cbrt V)), e2 / (e0 * e1) * cbrt V,
      α, β, γ⟩ hsin hcpos.le]
  dsimp only
  rw [Real.mul_self_sqrt (by positivity), div_mul_cancel₀ _ (ne_of_gt hcpos)]

theorem lattice_params_det (sg : ℕ) (volume minvec minangle max_ratio : ℝ)
    (d : LatDraw) (hvol : 0 < volume) (hvec : 0 < minvec) (hang : 0 < minangle)
    (hacc : lattice_accept (lattice_params sg volume d) minvec minangle
      max_ratio) :
    (para2matrix (lattice_params sg volume d)).det = volume := by
  obtain ⟨-, ha, hb, hc, -, -, -, -, hal, hbl, hgl, hau, hbu, hgu,
    -, -, -, -, -, -⟩ := hacc
  have he0 := Real.exp_pos d.r0
  have he1 := Real.exp_pos d.r1
  have he2 := Real.exp_pos d.r2
  by_cases h2 : sg ≤ 2
  · -- triclinic
    simp only [lattice_params, if_pos h2] at ha hc hgl hgu ⊢
    have hsin : 0 < Real.sin d.angG :=
      Real.sin_pos_of_pos_of_lt_pi (by linarith) (by linarith)
    rw [det_scaled_abc _ _ _ _ _ _ _ he0 he1 he2 hsin (by linarith)]
    have hC : 0 < cbrt (volume / Real.sqrt (1 - Real.cos d.angA ^ 2 -
        Real.cos d.angB ^ 2 - Real.cos d.angG ^ 2 +
        2 * (Real.cos d.angA * Real.cos d.angB * Real.cos d.angG))) := by
      have hK : 0 < cbrt (Real.exp d.r0 * Real.exp d.r1 * Real.exp d.r2) :=
        cbrt_pos (by positivity)
      have hapos : 0 < Real.exp d.r0 * cbrt (volume / Real.sqrt (1 -
          Real.cos d.angA ^ 2 - Real.cos d.angB ^ 2 - Real.cos d.angG ^ 2 +
          2 * (Real.cos d.angA * Real.cos d.angB * Real.cos d.angG))) /
          cbrt (Real.exp d.r0 * Real.exp d.r1 * Real.exp d.r2) := by
        linarith
      rcases div_pos_iff.mp hapos with ⟨hnum, -⟩ | ⟨-, hKneg⟩
      · rcases mul_pos_iff.mp hnum with ⟨-, hCpos⟩ | ⟨he0neg, -⟩
        · exact hCpos
        · exact absurd he0 (not_lt.mpr he0neg.le)
      · exact absurd hK (not_lt.mpr hKneg.le)
    have habc := pos_of_cbrt_pos hC
    have hx : 0 < Real.sqrt (1 - Real.cos d.angA ^ 2 - Real.cos d.angB ^ 2 -
        Real.cos d.angG ^ 2 +
        2 * (Real.cos d.angA * Real.cos d.angB * Real.cos d.angG)) := by
      rcases div_pos_iff.mp habc with ⟨-, hxx⟩ | ⟨hvneg, -⟩
      · exact hxx
      · exact absurd hvol (not_lt.mpr hvneg.le)
    exact div_mul_cancel₀ volume (ne_of_gt hx)
  · by_cases h15 : sg ≤ 15
    · -- monoclinic
      simp only [lattice_params, if_neg h2, if_pos h15] at ha hc hbl hbu ⊢
      have hsinb : 0 < Real.sin d.betaM :=
        Real.sin_pos_of_pos_of_lt_pi (by linarith) (by linarith)
      rw [det_scaled_abc _ _ _ _ _ _ _ he0 he1 he2
        (by rw [Real.sin_pi_div_two]; norm_num) (by linarith)]
      rw [show 1 - Real.cos (Real.pi / 2) ^ 2 - Real.cos d.betaM ^ 2 -
          Real.cos (Real.pi / 2) ^ 2 +
          2 * (Real.cos (Real.pi / 2) * Real.cos d.betaM *
            Real.cos (Real.pi / 2)) = Real.sin d.betaM ^ 2 from by
        rw [Real.cos_pi_div_two, Real.sin_sq]; ring]
      rw [Real.sqrt_sq hsinb.le]
      exact div_mul_cancel₀ volume (ne_of_gt hsinb)
    · by_cases h74 : sg ≤ 74
      · -- orthorhombic
        simp only [lattice_params, if_neg h2, if_neg h15, if_pos h74] at hc ⊢
        rw [det_scaled_abc _ _ _ _ _ _ _ he0 he1 he2
          (by rw [Real.sin_pi_div_two]; norm_num) (by linarith)]
        rw [show 1 - Real.cos (Real.pi / 2) ^ 2 - Real.cos (Real.pi / 2) ^ 2 -
            Real.cos (Real.pi / 2) ^ 2 +
            2 * (Real.cos (Real.pi / 2) * Real.cos (Real.pi / 2) *
              Real.cos (Real.pi / 2)) = 1 from by
          rw [Real.cos_pi_div_two]; ring]
        rw [Real.sqrt_one, mul_one, div_one]
      · by_cases h142 : sg ≤ 142
        · -- tetragonal
          simp only [lattice_params, if_neg h2, if_neg h15, if_neg h74,
            if_pos h142]
          rw [det_sqrt_ac _ _ _ _ _ _ _ (by positivity) he0 he1 he2
            (by rw [Real.sin_pi_div_two]; norm_num)]
          rw [show 1 - Real.cos (Real.pi / 2) ^ 2 - Real.cos (Real.pi / 2) ^ 2 -
              Real.cos (Real.pi / 2) ^ 2 +
              2 * (Real.cos (Real.pi / 2) * Real.cos (Real.pi / 2) *
                Real.cos (Real.pi / 2)) = 1 from by
            rw [Real.cos_pi_div_two]; ring]
          rw [Real.sqrt_one, mul_one, div_one]
        · by_cases h194 : sg ≤ 194
          · -- hexagonal
            simp only [lattice_params, if_neg h2, if_neg h15, if_neg h74,
              if_neg h142, if_pos h194]
            have hs3 : (0:ℝ) < Real.sqrt 3 / 2 := by
              have : (0:ℝ) < Real.sqrt 3 := Real.sqrt_pos.mpr (by norm_num)
              linarith
            have h23 : 2 * Real.pi / 3 = Real.pi - Real.pi / 3 := by ring
            have hsin23 : 0 < Real.sin (2 * Real.pi / 3) := by
              rw [h23, Real.sin_pi_sub]
              exact Real.sin_pos_of_pos_of_lt_pi (by positivity)
                (by linarith [Real.pi_gt_three])
            rw [det_sqrt_ac _ _ _ _ _ _ _ (by positivity) he0 he1 he2 hsin23]
            rw [show 1 - Real.cos (Real.pi / 2) ^ 2 -
                Real.cos (Real.pi / 2) ^ 2 - Real.cos (2 * Real.pi / 3) ^ 2 +
                2 * (Real.cos (Real.pi / 2) * Real.cos (Real.pi / 2) *
                  Real.cos (2 * Real.pi / 3)) = 3 / 4 from by
              rw [Real.cos_pi_div_two, h23, Real.cos_pi_sub,
                Real.cos_pi_div_three]
              ring]
            rw [show (3:ℝ) / 4 = Real.sqrt 3 / 2 * (Real.sqrt 3 / 2) from by
              rw [div_mul_div_comm, Real.mul_self_sqrt (by norm_num)]
              norm_num]
            rw [Real.sqrt_mul_self hs3.le]
            exact div_mul_cancel₀ volume (ne_of_gt hs3)
          · -- cubic
            simp only [lattice_params, if_neg h2, if_neg h15, if_neg h74,
              if_neg h142, if_neg h194]
            rw [det_para2matrix_eval ⟨volume ^ ((1:ℝ)/3), volume ^ ((1:ℝ)/3),
              volume ^ ((1:ℝ)/3), Real.pi / 2, Real.pi / 2, Real.pi / 2⟩
              (by rw [Real.sin_pi_div_two]; norm_num)
              (Real.rpow_nonneg hvol.le _)]
            dsimp only
            rw [show 1 - Real.cos (Real.pi / 2) ^ 2 -
                Real.cos (Real.pi / 2) ^ 2 - Real.cos (Real.pi / 2) ^ 2 +
                2 * (Real.cos (Real.pi / 2) * Real.cos (Real.pi / 2) *
                  Real.cos (Real.pi / 2)) = 1 from by
              rw [Real.cos_pi_div_two]; ring]
            rw [Real.sqrt_one, mul_one]
            rw [show volume ^ ((1:ℝ)/3) * volume ^ ((1:ℝ)/3) *
                volume ^ ((1:ℝ)/3) = (volume ^ ((1:ℝ)/3)) ^ (3:ℕ) from by ring]
            exact rpow_third_cube hvol.le

theorem generate_lattice_some (sg : ℕ) (volume minvec minangle max_ratio : ℝ) :
    ∀ (draws : List LatDraw) (p : Cell6),
    generate_lattice sg volume minvec minangle max_ratio draws = some p →
    ∃ d, p = lattice_params sg volume d ∧
      lattice_accept p minvec minangle max_ratio := by
  intro draws
  induction draws with
  | nil => intro p h; exact Option.noConfusion h
  | cons dr ds ih =>
    intro p h
    simp only [generate_lattice] at h
    by_cases hacc : lattice_accept (lattice_params sg volume dr) minvec
      minangle max_ratio
    · rw [if_pos hacc] at h
      have he := Option.some.inj h
      exact ⟨dr, he.symm, he ▸ hacc⟩
    · rw [if_neg hacc] at h
      exact ih p h

theorem generate_lattice_cubic_eval :
    generate_lattice 195 8 1 1 10 [⟨0, 0, 0, 0, 0, 0, 0⟩] =
      some ⟨2, 2, 2, Real.pi / 2, Real.pi / 2, Real.pi / 2⟩ := by
  have hs : (8:ℝ) ^ ((1:ℝ)/3) = 2 := by
    rw [show (8:ℝ) = (2:ℝ) ^ ((3:ℕ):ℝ) from by rw [Real.rpow_natCast]; norm_num,
      ← Real.rpow_mul (by norm_num),
      show ((3:ℕ):ℝ) * ((1:ℝ)/3) = 1 from by push_cast; ring, Real.rpow_one]
  have hp : lattice_params 195 8 ⟨0, 0, 0, 0, 0, 0, 0⟩ =
      ⟨2, 2, 2, Real.pi / 2, Real.pi / 2, Real.pi / 2⟩ := by
    simp only [lattice_params]
    norm_num [hs]
  have hacc : lattice_accept ⟨2, 2, 2, Real.pi / 2, Real.pi / 2, Real.pi / 2⟩
      1 1 10 := by
    have hpi := Real.pi_gt_three
    simp only [lattice_accept]
    norm_num [Real.cos_pi_div_two]
    and_intros <;> linarith
  simp only [generate_lattice]
  rw [hp, if_pos hacc]

/-- C4: every parameter tuple `(a, b, c, alpha, beta, gamma)` returned (not
`none`) by `generate_lattice` satisfies all acceptance conditions: `a`, `b`,
`c` each exceed `minvec`; `a`, `b`, `c` are each below
`maxvec = a*b*c/minvec^2`; all three angles lie strictly between `minangle`
and `pi - minangle`; all six pairwise vector-length ratios are within the
bound `max_ratio`; and `min(a*cos(max(beta,gamma)), b*cos(max(alpha,gamma)),
c*cos(max(alpha,beta)))` is below `minvec`. -/
theorem generate_lattice_accepted (sg : ℕ)
    (volume minvec minangle max_ratio : ℝ) (draws : List LatDraw) (p : Cell6)
    (h : generate_lattice sg volume minvec minangle max_ratio draws = some p) :
    (minvec < p.a ∧ minvec < p.b ∧ minvec < p.c) ∧
    (p.a < p.a * p.b * p.c / minvec ^ 2 ∧ p.b < p.a * p.b * p.c / minvec ^ 2 ∧
      p.c < p.a * p.b * p.c / minvec ^ 2) ∧
    (minangle < p.alpha ∧ minangle < p.beta ∧ minangle < p.gamma ∧
      p.alpha < Real.pi - minangle ∧ p.beta < Real.pi - minangle ∧
      p.gamma < Real.pi - minangle) ∧
    (p.a / p.b < max_ratio ∧ p.a / p.c < max_ratio ∧ p.b / p.c < max_ratio ∧
      p.b / p.a < max_ratio ∧ p.c / p.a < max_ratio ∧ p.c / p.b < max_ratio) ∧
    min (p.a * Real.cos (max p.beta p.gamma))
      (min (p.b * Real.cos (max p.alpha p.gamma))
        (p.c * Real.cos (max p.alpha p.beta))) < minvec := by
  obtain ⟨d, -, hacc⟩ := generate_lattice_some sg volume minvec minangle
    max_ratio draws p h
  obtain ⟨h0, h1, h2, h3, h4, h5, h6, h7, h8, h9, h10, h11, h12, h13, h14,
    h15, h16, h17, h18, h19⟩ := hacc
  exact ⟨⟨h1, h2, h3⟩, ⟨h4, h5, h6⟩, ⟨h8, h9, h10, h11, h12, h13⟩,
    ⟨h14, h15, h16, h17, h18, h19⟩, h7⟩

theorem generate_lattice_accepted_witness :
    generate_lattice 195 8 1 1 10 [⟨0, 0, 0, 0, 0, 0, 0⟩] =
      some ⟨2, 2, 2, Real.pi / 2, Real.pi / 2, Real.pi / 2⟩ ∧ (1:ℝ) < 2 :=
  ⟨generate_lattice_cubic_eval,
   (generate_lattice_accepted 195 8 1 1 10 _ _
     generate_lattice_cubic_eval).1.1⟩

/-- C2: for every parameter tuple returned (not `none`) by
`generate_lattice(sg, volume, ...)` (with positive requested volume,
`minvec` and `minangle`, as in every call site), the determinant of
`para2matrix` applied to that tuple differs from the requested volume by at
most 1 (in exact arithmetic it is equal); consequently the volume-mismatch
test `np.fabs(volume - det) > 1.0` of `generate_crystal`, which prints an
error and calls `sys.exit(0)`, cannot fire. -/
theorem generate_lattice_det (sg : ℕ) (volume minvec minangle max_ratio : ℝ)
    (draws : List LatDraw) (p : Cell6)
    (hvol : 0 < volume) (hvec : 0 < minvec) (hang : 0 < minangle)
    (h : generate_lattice sg volume minvec minangle max_ratio draws = some p) :
    |(para2matrix p).det - volume| ≤ 1 ∧
    ¬ 1 < |volume - (para2matrix p).det| := by
  obtain ⟨d, rfl, hacc⟩ := generate_lattice_some sg volume minvec minangle
    max_ratio draws p h
  have hdet := lattice_params_det sg volume minvec minangle max_ratio d hvol
    hvec hang hacc
  rw [hdet]
  refine ⟨by simp, by simp⟩

theorem generate_lattice_det_witness :
    |(para2matrix ⟨2, 2, 2, Real.pi / 2, Real.pi / 2, Real.pi / 2⟩).det -
      8| ≤ 1 ∧
    ¬ 1 < |8 - (para2matrix ⟨2, 2, 2, Real.pi / 2, Real.pi / 2,
      Real.pi / 2⟩).det| :=
  generate_lattice_det 195 8 1 1 10 [⟨0, 0, 0, 0, 0, 0, 0⟩] _
    (by norm_num) (by norm_num) (by norm_num) generate_lattice_cubic_eval

theorem para2matrix_00 (p : Cell6) : para2matrix p 0 0 = p.a := by
  simp [para2matrix]

theorem para2matrix_01 (p : Cell6) : para2matrix p 0 1 = 0 := by
  simp [para2matrix]

theorem para2matrix_02 (p : Cell6) : para2matrix p 0 2 = 0 := by
  simp [para2matrix]

theorem para2matrix_10 (p : Cell6) :
    para2matrix p 1 0 = p.b * Real.cos p.gamma := by
  simp [para2matrix]

theorem para2matrix_11 (p : Cell6) :
    para2matrix p 1 1 = p.b * Real.sin p.gamma := by
  simp [para2matrix]

theorem para2matrix_12 (p : Cell6) : para2matrix p 1 2 = 0 := by
  simp [para2matrix]

theorem para2matrix_20 (p : Cell6) :
    para2matrix p 2 0 = p.c * Real.cos p.beta := by
  simp [para2matrix]

theorem para2matrix_21 (p : Cell6) :
    para2matrix p 2 1 = p.c * (Real.cos p.alpha -
      Real.cos p.beta * Real.cos p.gamma) / Real.sin p.gamma := by
  simp [para2matrix]

theorem para2matrix_22 (p : Cell6) :
    para2matrix p 2 2 = Real.sqrt (p.c ^ 2 - (p.c * Real.cos p.beta) ^ 2 -
      (p.c * (Real.cos p.alpha - Real.cos p.beta * Real.cos p.gamma) /
        Real.sin p.gamma) ^ 2) := by
  simp [para2matrix]

/-- C7 (amended): for every valid parameter tuple with `a, b, c > 0`,
angles in `(0, pi)` and a positive argument under `para2matrix`'s square
root, and whose three pairwise row dot products `b*c*cos(alpha)`,
`a*c*cos(beta)`, `a*b*cos(gamma)` avoid the `np.isclose` bands of width
`1e-8 + 1e-5` around `1` and `-1` that `angle` special-cases on the
unnormalized dot product, `matrix2para` applied to `para2matrix` of the
tuple returns the original tuple, each component within `1e-8` (indeed
exactly).  Without the band conditions the claim fails, see the
counterexample below. -/
theorem matrix2para_para2matrix (p : Cell6)
    (ha : 0 < p.a) (hb : 0 < p.b) (hc : 0 < p.c)
    (hal : 0 < p.alpha) (hau : p.alpha < Real.pi)
    (hbl : 0 < p.beta) (hbu : p.beta < Real.pi)
    (hgl : 0 < p.gamma) (hgu : p.gamma < Real.pi)
    (hrad : 0 < p.c ^ 2 - (p.c * Real.cos p.beta) ^ 2 -
      (p.c * (Real.cos p.alpha - Real.cos p.beta * Real.cos p.gamma) /
        Real.sin p.gamma) ^ 2)
    (h1 : ¬ |p.b * p.c * Real.cos p.alpha - 1| ≤ 1e-8 + 1e-5 * 1)
    (h2 : ¬ |p.b * p.c * Real.cos p.alpha + 1| ≤ 1e-8 + 1e-5 * 1)
    (h3 : ¬ |p.a * p.c * Real.cos p.beta - 1| ≤ 1e-8 + 1e-5 * 1)
    (h4 : ¬ |p.a * p.c * Real.cos p.beta + 1| ≤ 1e-8 + 1e-5 * 1)
    (h5 : ¬ |p.a * p.b * Real.cos p.gamma - 1| ≤ 1e-8 + 1e-5 * 1)
    (h6 : ¬ |p.a * p.b * Real.cos p.gamma + 1| ≤ 1e-8 + 1e-5 * 1) :
    |(matrix2para (para2matrix p)).a - p.a| ≤ 1e-8 ∧
    |(matrix2para (para2matrix p)).b - p.b| ≤ 1e-8 ∧
    |(matrix2para (para2matrix p)).c - p.c| ≤ 1e-8 ∧
    |(matrix2para (para2matrix p)).alpha - p.alpha| ≤ 1e-8 ∧
    |(matrix2para (para2matrix p)).beta - p.beta| ≤ 1e-8 ∧
    |(matrix2para (para2matrix p)).gamma - p.gamma| ≤ 1e-8 := by
  have hsg : 0 < Real.sin p.gamma := Real.sin_pos_of_pos_of_lt_pi hgl hgu
  have hna : norm3 (para2matrix p 0) = p.a := by
    simp only [norm3, para2matrix_00, para2matrix_01, para2matrix_02]
    rw [show p.a ^ 2 + 0 ^ 2 + 0 ^ 2 = p.a ^ 2 from by ring,
      Real.sqrt_sq ha.le]
  have hnb : norm3 (para2matrix p 1) = p.b := by
    simp only [norm3, para2matrix_10, para2matrix_11, para2matrix_12]
    rw [show (p.b * Real.cos p.gamma) ^ 2 + (p.b * Real.sin p.gamma) ^ 2 +
        0 ^ 2 = p.b ^ 2 from by
      linear_combination p.b ^ 2 * Real.sin_sq_add_cos_sq p.gamma]
    exact Real.sqrt_sq hb.le
  have hnc : norm3 (para2matrix p 2) = p.c := by
    simp only [norm3, para2matrix_20, para2matrix_21, para2matrix_22]
    rw [Real.sq_sqrt hrad.le]
    rw [show (p.c * Real.cos p.beta) ^ 2 +
        (p.c * (Real.cos p.alpha - Real.cos p.beta * Real.cos p.gamma) /
          Real.sin p.gamma) ^ 2 +
        (p.c ^ 2 - (p.c * Real.cos p.beta) ^ 2 -
          (p.c * (Real.cos p.alpha - Real.cos p.beta * Real.cos p.gamma) /
            Real.sin p.gamma) ^ 2) = p.c ^ 2 from by ring]
    exact Real.sqrt_sq hc.le
  have hdA : dot3 (para2matrix p 1) (para2matrix p 2) =
      p.b * p.c * Real.cos p.alpha := by
    simp only [dot3, para2matrix_10, para2matrix_11, para2matrix_12,
      para2matrix_20, para2matrix_21, para2matrix_22]
    field_simp
    ring
  have hdB : dot3 (para2matrix p 0) (para2matrix p 2) =
      p.a * p.c * Real.cos p.beta := by
    simp only [dot3, para2matrix_00, para2matrix_01, para2matrix_02,
      para2matrix_20, para2matrix_21, para2matrix_22]
    ring
  have hdG : dot3 (para2matrix p 0) (para2matrix p 1) =
      p.a * p.b * Real.cos p.gamma := by
    simp only [dot3, para2matrix_00, para2matrix_01, para2matrix_02,
      para2matrix_10, para2matrix_11, para2matrix_12]
    ring
  have hA : angle (para2matrix p 1) (para2matrix p 2) = p.alpha := by
    simp only [angle, hdA, hnb, hnc]
    rw [if_neg h1, if_neg h2]
    rw [show p.b * p.c * Real.cos p.alpha / (p.b * p.c) = Real.cos p.alpha
      from by field_simp]
    exact Real.arccos_cos hal.le hau.le
  have hB : angle (para2matrix p 0) (para2matrix p 2) = p.beta := by
    simp only [angle, hdB, hna, hnc]
    rw [if_neg h3, if_neg h4]
    rw [show p.a * p.c * Real.cos p.beta / (p.a * p.c) = Real.cos p.beta
      from by field_simp]
    exact Real.arccos_cos hbl.le hbu.le
  have hG : angle (para2matrix p 0) (para2matrix p 1) = p.gamma := by
    simp only [angle, hdG, hna, hnb]
    rw [if_neg h5, if_neg h6]
    rw [show p.a * p.b * Real.cos p.gamma / (p.a * p.b) = Real.cos p.gamma
      from by field_simp]
    exact Real.arccos_cos hgl.le hgu.le
  refine ⟨?_, ?_, ?_, ?_, ?_, ?_⟩ <;> dsimp only [matrix2para]
  · rw [hna, sub_self, abs_zero]; norm_num
  · rw [hnb, sub_self, abs_zero]; norm_num
  · rw [hnc, sub_self, abs_zero]; norm_num
  · rw [hA, sub_self, abs_zero]; norm_num
  · rw [hB, sub_self, abs_zero]; norm_num
  · rw [hG, sub_self, abs_zero]; norm_num

theorem matrix2para_para2matrix_witness :
    |(matrix2para (para2matrix ⟨1, 1, 1, Real.pi / 2, Real.pi / 2,
      Real.pi / 2⟩)).a - 1| ≤ 1e-8 ∧
    |(matrix2para (para2matrix ⟨1, 1, 1, Real.pi / 2, Real.pi / 2,
      Real.pi / 2⟩)).b - 1| ≤ 1e-8 ∧
    |(matrix2para (para2matrix ⟨1, 1, 1, Real.pi / 2, Real.pi / 2,
      Real.pi / 2⟩)).c - 1| ≤ 1e-8 ∧
    |(matrix2para (para2matrix ⟨1, 1, 1, Real.pi / 2, Real.pi / 2,
      Real.pi / 2⟩)).alpha - Real.pi / 2| ≤ 1e-8 ∧
    |(matrix2para (para2matrix ⟨1, 1, 1, Real.pi / 2, Real.pi / 2,
      Real.pi / 2⟩)).beta - Real.pi / 2| ≤ 1e-8 ∧
    |(matrix2para (para2matrix ⟨1, 1, 1, Real.pi / 2, Real.pi / 2,
      Real.pi / 2⟩)).gamma - Real.pi / 2| ≤ 1e-8 :=
  matrix2para_para2matrix ⟨1, 1, 1, Real.pi / 2, Real.pi / 2, Real.pi / 2⟩
    (by norm_num) (by norm_num) (by norm_num)
    (by positivity) (by linarith [Real.pi_pos])
    (by positivity) (by linarith [Real.pi_pos])
    (by positivity) (by linarith [Real.pi_pos])
    (by simp [Real.cos_pi_div_two, Real.sin_pi_div_two])
    (by rw [Real.cos_pi_div_two]; norm_num)
    (by rw [Real.cos_pi_div_two]; norm_num)
    (by rw [Real.cos_pi_div_two]; norm_num)
    (by rw [Real.cos_pi_div_two]; norm_num)
    (by rw [Real.cos_pi_div_two]; norm_num)
    (by rw [Real.cos_pi_div_two]; norm_num)

/-- C7 counterexample: the parameter tuple
`(1, sqrt 2, sqrt 2, pi/3, pi/2, pi/2)` is valid (positive lengths, angles
in `(0, pi)`, positive square-root radicand), yet the round trip does not
return the original `alpha` within `1e-8`: the unnormalized dot product of
rows 1 and 2 equals exactly `b*c*cos(alpha) = 1`, so `angle`'s
`np.isclose(dot, 1)` branch returns `0` instead of `pi/3`. -/
theorem matrix2para_roundtrip_counterexample :
    ∃ p : Cell6,
      (0 < p.a ∧ 0 < p.b ∧ 0 < p.c ∧
       0 < p.alpha ∧ p.alpha < Real.pi ∧ 0 < p.beta ∧ p.beta < Real.pi ∧
       0 < p.gamma ∧ p.gamma < Real.pi ∧
       0 < p.c ^ 2 - (p.c * Real.cos p.beta) ^ 2 -
         (p.c * (Real.cos p.alpha - Real.cos p.beta * Real.cos p.gamma) /
           Real.sin p.gamma) ^ 2) ∧
      ¬ |(matrix2para (para2matrix p)).alpha - p.alpha| ≤ 1e-8 := by
  have hs2 : Real.sqrt 2 ^ 2 = 2 := Real.sq_sqrt (by norm_num)
  have hs2p : (0:ℝ) < Real.sqrt 2 := Real.sqrt_pos.mpr (by norm_num)
  refine ⟨⟨1, Real.sqrt 2, Real.sqrt 2, Real.pi / 3, Real.pi / 2,
    Real.pi / 2⟩, ⟨by norm_num, hs2p, hs2p,
    by positivity, by linarith [Real.pi_pos],
    by positivity, by linarith [Real.pi_pos],
    by positivity, by linarith [Real.pi_pos], ?_⟩, ?_⟩
  · dsimp only
    rw [Real.cos_pi_div_two, Real.sin_pi_div_two, Real.cos_pi_div_three]
    nlinarith [hs2]
  · have hdot : dot3 (para2matrix ⟨1, Real.sqrt 2, Real.sqrt 2, Real.pi / 3,
        Real.pi / 2, Real.pi / 2⟩ 1)
        (para2matrix ⟨1, Real.sqrt 2, Real.sqrt 2, Real.pi / 3,
        Real.pi / 2, Real.pi / 2⟩ 2) = 1 := by
      simp only [dot3, para2matrix_10, para2matrix_11, para2matrix_12,
        para2matrix_20, para2matrix_21, para2matrix_22]
      rw [Real.cos_pi_div_two, Real.sin_pi_div_two, Real.cos_pi_div_three]
      linear_combination hs2 / 2
    dsimp only [matrix2para]
    rw [show angle (para2matrix ⟨1, Real.sqrt 2, Real.sqrt 2, Real.pi / 3,
        Real.pi / 2, Real.pi / 2⟩ 1)
        (para2matrix ⟨1, Real.sqrt 2, Real.sqrt 2, Real.pi / 3,
        Real.pi / 2, Real.pi / 2⟩ 2) = 0 from by
      simp only [angle, hdot]
      rw [if_pos (by norm_num)]]
    rw [zero_sub, abs_neg, abs_of_pos (by positivity)]
    intro hcon
    have := Real.pi_gt_three
    nlinarith
